import Mathlib

/-!
Verification development for a persistent byte-oriented trie layered on a
key-value store (milky-trie).  The Rust source in src/lib.rs is shallowly
embedded: byte buffers are lists of naturals, the backing store is a map
from byte-list keys to stored values, machine integers are naturals with
explicit truncation (mod 2^32 for u32 edge targets, mod 2^64 for usize),
and code that can panic returns Option (none = panic).  The raw memory
reinterpretation that the source uses to encode a node or the metadata
record is modeled by storing the structured value itself; the three key
families (metadata, node, value cell) are length-disjoint, so this is
observationally faithful.
-/

set_option maxHeartbeats 1000000
set_option maxRecDepth 100000

/-- Four little-endian bytes of a natural number, as written by
u32 to_le_bytes after an `as u32` cast. -/
def le32 (n : Nat) : List Nat :=
  [n % 256, n / 256 % 256, n / 65536 % 256, n / 16777216 % 256]

/-- Eight little-endian bytes of a natural number, as written by
usize to_le_bytes. -/
def le64 (n : Nat) : List Nat :=
  [n % 256, n / 256 % 256, n / 65536 % 256, n / 16777216 % 256,
   n / 4294967296 % 256, n / 1099511627776 % 256,
   n / 281474976710656 % 256, n / 72057594037927936 % 256]

/-- u32 from_le_bytes over the first four entries of a list. -/
def leRead4 (l : List Nat) : Nat :=
  l.getD 0 0 + 256 * l.getD 1 0 + 65536 * l.getD 2 0 + 16777216 * l.getD 3 0

/-- Whether a byte is a UTF-8 continuation byte (0x80..=0xBF). -/
def contByte (b : Nat) : Bool := decide (128 ≤ b) && decide (b ≤ 191)

/-- Whether a byte lies in a closed range, as a boolean. -/
def byteIn (lo b hi : Nat) : Bool := decide (lo ≤ b) && decide (b ≤ hi)

/-- Modeled from the documented behavior of std str from_utf8, the external
standard-library function the source calls: well-formed UTF-8 (no overlong
encodings, no surrogates, maximum code point U+10FFFF). -/
def validUtf8 : List Nat → Bool
  | [] => true
  | b :: rest =>
    if b ≤ 127 then validUtf8 rest
    else if b ≤ 193 then false
    else if b ≤ 223 then
      match rest with
      | b1 :: r => contByte b1 && validUtf8 r
      | [] => false
    else if b ≤ 239 then
      match rest with
      | b1 :: b2 :: r =>
        (if b = 224 then byteIn 160 b1 191
         else if b = 237 then byteIn 128 b1 159
         else contByte b1) && contByte b2 && validUtf8 r
      | _ => false
    else if b ≤ 244 then
      match rest with
      | b1 :: b2 :: b3 :: r =>
        (if b = 240 then byteIn 144 b1 191
         else if b = 244 then byteIn 128 b1 143
         else contByte b1) && contByte b2 && contByte b3 && validUtf8 r
      | _ => false
    else false

/-- The buffer of one value cell, as returned by Trie get. -/
structure Items where
  bytes : List Nat
deriving DecidableEq

/-- Outcome of one call to ItemsStrIter next at cursor pos:
item = Some(str) with the new cursor; skip = None because the payload is
not valid UTF-8 (cursor advanced past the record); stop = None from the
end-of-buffer check (cursor unchanged); panic = out-of-bounds slice index
when fewer payload bytes remain than the declared length. -/
inductive Step where
  | stop
  | panic
  | skip (pos : Nat)
  | item (s : List Nat) (pos : Nat)
deriving DecidableEq

/-- One step of ItemsStrIter next, exactly as the source reads it: stop as
soon as pos + 4 is at least the buffer length, read a 4-byte LE length,
slice that many payload bytes (panicking if they are not all present), and
yield the payload only when it is valid UTF-8. -/
def itemsNext (buf : List Nat) (pos : Nat) : Step :=
  if buf.length ≤ pos + 4 then .stop
  else
    let len := leRead4 ((buf.drop pos).take 4)
    if buf.length < pos + 4 + len then .panic
    else if validUtf8 ((buf.drop (pos + 4)).take len) then
      .item ((buf.drop (pos + 4)).take len) (pos + 4 + len)
    else .skip (pos + 4 + len)

/-- One full iteration pass over a value cell buffer, as a consumer of the
iterator sees it: values yielded until the first None (end of buffer or an
invalid UTF-8 record both end the pass); none models a panic during the
pass. -/
def itemsPassAux (buf : List Nat) (pos : Nat) : Option (List (List Nat)) :=
  match h : itemsNext buf pos with
  | .stop => some []
  | .skip _ => some []
  | .panic => none
  | .item v p2 => (itemsPassAux buf p2).map (v :: ·)
termination_by buf.length - pos
decreasing_by
  unfold itemsNext at h
  by_cases h1 : buf.length ≤ pos + 4
  · simp [h1] at h
  · simp only [if_neg h1] at h
    by_cases h2 : buf.length < pos + 4 + leRead4 ((buf.drop pos).take 4)
    · simp [h2] at h
    · simp only [if_neg h2] at h
      by_cases h3 : validUtf8 ((buf.drop (pos + 4)).take (leRead4 ((buf.drop pos).take 4))) = true
      · simp only [if_pos h3, Step.item.injEq] at h
        omega
      · simp [h3] at h

/-- A single pass of Items as_str from the start of the buffer. -/
def itemsPass (buf : List Nat) : Option (List (List Nat)) :=
  itemsPassAux buf 0

/-- One length-prefixed record of the value log, as append_value writes it. -/
def encRecord (v : List Nat) : List Nat := le32 v.length ++ v

/-- A well-formed value cell: the concatenation of the records of the given
values, in order. -/
def wfCell (vs : List (List Nat)) : List Nat :=
  vs.foldr (fun v acc => encRecord v ++ acc) []

/-- A trie node: the byte of the incoming edge and a 256-slot edge table,
TrieNode { value: u8, next: [Option<u32>; 256] }.  Edge targets are the
u32 values the source stores (nextn as u32). -/
structure TrieNode where
  value : Nat
  next : List (Option Nat)
deriving DecidableEq

/-- A value held by the backing store.  The source stores raw bytes and
reinterprets them; since the three key families are length-disjoint the
structured view is observationally faithful: bytes for value cells, node
for node records, meta for the TrieData { qty } metadata record. -/
inductive StoredVal where
  | bytes (b : List Nat)
  | node (nd : TrieNode)
  | meta (q : Nat)
deriving DecidableEq

/-- The backing store: current contents, an injected set of keys on which
put fails with an I/O error, and the ordered log of successful puts
(ghost instrumentation used to state write-ordering properties). -/
structure Store where
  data : List Nat → Option StoredVal
  putFails : List Nat → Bool
  trace : List (List Nat × StoredVal)

/-- db.put: fails (none) on an injected I/O error, otherwise updates the
key and logs the write. -/
def dbPut (s : Store) (k : List Nat) (v : StoredVal) : Option Store :=
  if s.putFails k then none
  else some ⟨fun k2 => if k2 = k then some v else s.data k2, s.putFails,
             s.trace ++ [(k, v)]⟩

/-- The engine state: backing store, namespace bytes, TrieData qty, and the
in-memory node cache. -/
structure Trie where
  store : Store
  ns : List Nat
  qty : Nat
  cache : Nat → Option TrieNode

/-- The literal key suffix b"/values". -/
def valuesSuffix : List Nat := [47, 118, 97, 108, 117, 101, 115]

/-- Key assembly through the fixed 1024-byte buffer of the source: none
models the slice panic when prefix plus suffix exceed the buffer. -/
def mkKey (ns suf : List Nat) : Option (List Nat) :=
  if ns.length + suf.length ≤ 1024 then some (ns ++ suf) else none

/-- The backing-store key of node n (unchecked form, for specifications). -/
def nodeKey (ns : List Nat) (n : Nat) : List Nat := ns ++ le64 n

/-- The backing-store key of the value cell of node n. -/
def valueKey (ns : List Nat) (n : Nat) : List Nat := ns ++ le64 n ++ valuesSuffix

/-- TrieNode default(): value 0 and an empty 256-slot edge table. -/
def defaultNode : TrieNode := ⟨0, List.replicate 256 none⟩

/-- Edge lookup current.next[b]. -/
def getEdge (nd : TrieNode) (b : Nat) : Option Nat := nd.next.getD b none

/-- Edge update current.next[b] = Some(m). -/
def setEdge (nd : TrieNode) (b m : Nat) : TrieNode :=
  ⟨nd.value, nd.next.set b (some m)⟩

/-- get_trie_node_at: build the node key through the 1024-byte buffer
(outer none = panic) and read the store; a missing key or a non-node value
reads as no node (the source would transmute whatever bytes are there, but
within one namespace only node records can sit at node keys). -/
def Trie.get_trie_node_at (t : Trie) (n : Nat) : Option (Option TrieNode) :=
  match mkKey t.ns (le64 n) with
  | none => none
  | some k =>
    some (match t.store.data k with
          | some (.node nd) => some nd
          | _ => none)

/-- put_trie_node_at: build the node key (none = buffer panic) and write
the record; a failed db.put is unwrapped, so an I/O error is a panic. -/
def Trie.put_trie_node_at (t : Trie) (n : Nat) (nd : TrieNode) : Option Store :=
  match mkKey t.ns (le64 n) with
  | none => none
  | some k => dbPut t.store k (.node nd)

/-- cache_get_node_at: serve from the cache, otherwise read storage and
populate the cache.  Outer none = panic inside get_trie_node_at. -/
def Trie.cache_get_node_at (t : Trie) (n : Nat) : Option (Option TrieNode × Trie) :=
  match t.cache n with
  | some nd => some (some nd, t)
  | none =>
    match t.get_trie_node_at n with
    | none => none
    | some none => some (none, t)
    | some (some nd) =>
      some (some nd, ⟨t.store, t.ns, t.qty,
                      fun m => if m = n then some nd else t.cache m⟩)

/-- cache_put_node_at: overwrite the cache entry first, then write through
to storage (whose failure is a panic, losing the whole call). -/
def Trie.cache_put_node_at (t : Trie) (n : Nat) (nd : TrieNode) : Option Trie :=
  let t1 : Trie := ⟨t.store, t.ns, t.qty,
                    fun m => if m = n then some nd else t.cache m⟩
  match t1.put_trie_node_at n nd with
  | none => none
  | some s => some ⟨s, t1.ns, t1.qty, t1.cache⟩

/-- set_trie_data: write the metadata record at the bare namespace key;
the result of db.put is discarded, so an I/O error leaves the store
unchanged and the call continues normally. -/
def Trie.set_trie_data (t : Trie) : Trie :=
  match dbPut t.store t.ns (.meta t.qty) with
  | none => t
  | some s => ⟨s, t.ns, t.qty, t.cache⟩

/-- get_value: read the value cell of node n (none = buffer panic); a
missing cell is an empty buffer. -/
def Trie.get_value (t : Trie) (n : Nat) : Option Items :=
  match mkKey t.ns (le64 n ++ valuesSuffix) with
  | none => none
  | some k =>
    some ⟨match t.store.data k with
          | some (.bytes b) => b
          | _ => []⟩

/-- append_value: read the current cell, append the 4-byte LE length (the
length cast as u32) and the payload, and write the cell back; the db.put
is unwrapped, so an I/O error is a panic. -/
def Trie.append_value (t : Trie) (n : Nat) (v : List Nat) : Option Trie :=
  match mkKey t.ns (le64 n ++ valuesSuffix) with
  | none => none
  | some k =>
    let old := match t.store.data k with
      | some (.bytes b) => b
      | _ => []
    match dbPut t.store k (.bytes (old ++ le32 v.length ++ v)) with
    | none => none
    | some s => some ⟨s, t.ns, t.qty, t.cache⟩

/-- The byte loop of insert.  On a missing edge: bump qty (a wrapping
usize), set the parent edge to the new index truncated to u32, write the
parent first and the fresh child second, and continue from the child.
Returns the final node index; none = panic anywhere on the way. -/
def insertLoop (t : Trie) (n : Nat) (cur : TrieNode) : List Nat → Option (Trie × Nat)
  | [] => some (t, n)
  | b :: rest =>
    match getEdge cur b with
    | some nextn =>
      match t.cache_get_node_at nextn with
      | some (some nd, t1) => insertLoop t1 nextn nd rest
      | _ => none
    | none =>
      let q := (t.qty + 1) % 18446744073709551616
      let t1 : Trie := ⟨t.store, t.ns, q, t.cache⟩
      let cur1 := setEdge cur b (q % 4294967296)
      match t1.cache_put_node_at n cur1 with
      | none => none
      | some t2 =>
        match t2.cache_put_node_at q ⟨b, List.replicate 256 none⟩ with
        | none => none
        | some t3 => insertLoop t3 q ⟨b, List.replicate 256 none⟩ rest

/-- Trie insert: walk the key from the root (whose absence is an unwrap
panic), then persist the metadata record and append the value to the cell
of the final node. -/
def Trie.insert (t : Trie) (key v : List Nat) : Option Trie :=
  match t.cache_get_node_at 0 with
  | some (some root, t1) =>
    match insertLoop t1 0 root key with
    | some (t2, n) => (t2.set_trie_data).append_value n v
    | none => none
  | _ => none

/-- The byte loop of get: descend existing edges, short-circuiting to a
not-found result (inner none) on the first missing edge. -/
def getLoop (t : Trie) (n : Nat) (cur : TrieNode) : List Nat → Option (Option Nat × Trie)
  | [] => some (some n, t)
  | b :: rest =>
    match getEdge cur b with
    | some nextn =>
      match t.cache_get_node_at nextn with
      | some (some nd, t1) => getLoop t1 nextn nd rest
      | _ => none
    | none => some (none, t)

/-- Trie get: walk the key from the root; a fully matched key returns that
node value cell, a missing edge returns the empty buffer. -/
def Trie.get (t : Trie) (key : List Nat) : Option (Items × Trie) :=
  match t.cache_get_node_at 0 with
  | some (some root, t1) =>
    match getLoop t1 0 root key with
    | some (some n, t2) => (t2.get_value n).map (fun it => (it, t2))
    | some (none, t2) => some (⟨[]⟩, t2)
    | none => none
  | _ => none

/-- Trie new: read the metadata record (absent means qty 0), start with an
empty cache, and create the root node at index 0 if storage does not hold
one yet.  none = panic (a namespace too long for the key buffer). -/
def Trie.new (s : Store) (ns : List Nat) : Option Trie :=
  let q := match s.data ns with
    | some (.meta q) => q
    | _ => 0
  let t0 : Trie := ⟨s, ns, q, fun _ => none⟩
  match t0.cache_get_node_at 0 with
  | none => none
  | some (some _, t1) => some t1
  | some (none, t1) => t1.cache_put_node_at 0 defaultNode

/-- Trie flush: flush_wal on the store handle with its result discarded;
durability is not modeled, so the state is unchanged. -/
def Trie.flush (t : Trie) : Trie := t

/-- The node record stored for index n, read directly from the store. -/
def storedNode (t : Trie) (n : Nat) : Option TrieNode :=
  match t.store.data (nodeKey t.ns n) with
  | some (.node nd) => some nd
  | _ => none

/-- The value cell stored for node n (empty when absent). -/
def cellAt (t : Trie) (n : Nat) : List Nat :=
  match t.store.data (valueKey t.ns n) with
  | some (.bytes b) => b
  | _ => []

/-- Follow a key byte by byte through the stored nodes, starting at n. -/
def followStore (t : Trie) (n : Nat) : List Nat → Option Nat
  | [] => some n
  | b :: rest =>
    match storedNode t n with
    | some nd =>
      match getEdge nd b with
      | some m => followStore t m rest
      | none => none
    | none => none

/-- The value cell a key resolves to (empty when the path is missing). -/
def keyCell (t : Trie) (key : List Nat) : List Nat :=
  match followStore t 0 key with
  | some n => cellAt t n
  | none => []

/-- Some entry of the write log is a node record holding an edge to m. -/
def TraceHasEdgeTo (tr : List (List Nat × StoredVal)) (m : Nat) : Prop :=
  ∃ e ∈ tr, ∃ nd : TrieNode, e.2 = .node nd ∧ some m ∈ nd.next

/-- Write-ordering property of the log: every write of a non-root node
record is preceded by the write of a node record containing an edge to it
(the parent with its new edge goes to storage before the child). -/
def TraceOK (ns : List Nat) (tr : List (List Nat × StoredVal)) : Prop :=
  ∀ pre e post, tr = pre ++ e :: post →
    ∀ n nd, 1 ≤ n → n < 4294967296 → e = (nodeKey ns n, .node nd) →
      TraceHasEdgeTo pre n

/-- Structural invariants of a reachable engine state. -/
structure TrieInv (t : Trie) : Prop where
  rootEx : ∃ nd, storedNode t 0 = some nd
  cacheOK : ∀ n nd, n < 4294967296 → t.cache n = some nd → storedNode t n = some nd
  qtyBound : t.qty < 4294967296
  nodeLen : ∀ n nd, storedNode t n = some nd → nd.next.length = 256
  nodesBound : ∀ n nd, n < 4294967296 → storedNode t n = some nd → n ≤ t.qty
  edgeBound : ∀ n nd b m, storedNode t n = some nd → getEdge nd b = some m →
    1 ≤ m ∧ m ≤ t.qty
  edgeTarget : ∀ n nd b m, storedNode t n = some nd → getEdge nd b = some m →
    ∃ nd2, storedNode t m = some nd2
  freshCell : ∀ m, m < 4294967296 → t.qty < m →
    t.store.data (valueKey t.ns m) = none
  edgeTraced : ∀ n nd b m, storedNode t n = some nd → getEdge nd b = some m →
    TraceHasEdgeTo t.store.trace m
  traceOK : TraceOK t.ns t.store.trace

/-- The cache only grew, and only with entries copied from storage. -/
def CacheGrew (t t2 : Trie) : Prop :=
  ∀ n, t2.cache n = t.cache n ∨
    (t.cache n = none ∧ ∃ nd, storedNode t n = some nd ∧ t2.cache n = some nd)

/-- Replay a prefix of the write log over initial store contents, giving
the storage state visible after that many writes. -/
def replay (d : List Nat → Option StoredVal) :
    List (List Nat × StoredVal) → (List Nat → Option StoredVal)
  | [] => d
  | (k, v) :: tr => replay (fun k2 => if k2 = k then some v else d k2) tr

/-- A store with no contents, no injected failures and an empty log. -/
def emptyStore : Store := ⟨fun _ => none, fun _ => false, []⟩

/-- A fresh engine over the empty store with the empty namespace. -/
def trieA : Trie := (Trie.new emptyStore []).getD ⟨emptyStore, [], 0, fun _ => none⟩

/-- trieA after inserting the non-UTF-8 value [255] under key [97]. -/
def c1T : Trie := (trieA.insert [97] [255]).getD trieA

/-- trieA after inserting the value [52] under key [97]. -/
def c1wT : Trie := (trieA.insert [97] [52]).getD trieA

/-- trieA after inserting the value [42] under key [97]. -/
def c3T : Trie := (trieA.insert [97] [42]).getD trieA

/-- Storage contents visible after replaying only the first two writes of
the log that produced c3T. -/
def c3prefix2 : List Nat → Option StoredVal :=
  replay (fun _ => none) (c3T.store.trace.take 2)

/-- A store whose put fails exactly on the metadata key [112]. -/
def c5store : Store := ⟨fun _ => none, fun k => decide (k = [112]), []⟩

/-- An engine over c5store with namespace [112]. -/
def c5T : Trie := (Trie.new c5store [112]).getD ⟨c5store, [112], 0, fun _ => none⟩

/-- c5T after an insert whose metadata write fails. -/
def c5T2 : Trie := (c5T.insert [] [42]).getD c5T

/-- A namespace of 1016 bytes (the longest the node-key buffer can take). -/
def p1016 : List Nat := List.replicate 1016 0

/-- A namespace of 1017 bytes (one past the node-key buffer limit). -/
def p1017 : List Nat := List.replicate 1017 0

/-- A store already holding only a default root node. -/
def c7store : Store :=
  ⟨fun k => if k = nodeKey [] 0 then some (.node defaultNode) else none,
   fun _ => false, []⟩

/-- An engine state whose usize node counter sits at its maximum. -/
def c7T : Trie := ⟨c7store, [], 18446744073709551615, fun _ => none⟩

/-- c7T after one insert, whose allocation wraps the counter to zero. -/
def c7T2 : Trie := (c7T.insert [5] [1]).getD c7T

/-- trieA after inserting the empty value under the empty key. -/
def c9T : Trie := (trieA.insert [] []).getD trieA

/-- trieA after inserting the value [52] under the empty key. -/
def c9wT : Trie := (trieA.insert [] [52]).getD trieA

/-- Facts established by one allocation step of insert (parent write then
child write), used to drive the loop induction. -/
structure AllocOut (t : Trie) (n b : Nat) (cur : TrieNode) (t3 : Trie) : Prop where
  inv : TrieInv t3
  nsEq : t3.ns = t.ns
  qtyEq : t3.qty = t.qty + 1
  pfEq : t3.store.putFails = t.store.putFails
  child : storedNode t3 (t.qty + 1) = some ⟨b, List.replicate 256 none⟩
  childTraced : TraceHasEdgeTo t3.store.trace (t.qty + 1)
  parent : storedNode t3 n = some (setEdge cur b (t.qty + 1))
  preserve : ∀ m nd, storedNode t m = some nd → ∃ nd2, storedNode t3 m = some nd2
    ∧ nd2.value = nd.value ∧ (∀ b2 j, getEdge nd b2 = some j → getEdge nd2 b2 = some j)
  freshOne : ∀ m nd, m < 4294967296 → storedNode t3 m = some nd →
    storedNode t m = none → m = t.qty + 1
  dataFrame : ∀ k, t3.store.data k = t.store.data k ∨
    k = nodeKey t.ns n ∨ k = nodeKey t.ns (t.qty + 1)
  traceExt : ∃ tr2, t3.store.trace = t.store.trace ++ tr2

/-- Facts established by the byte loop of insert. -/
structure InsOut (t : Trie) (n : Nat) (K : List Nat) (t1 : Trie) (n1 : Nat) : Prop where
  inv : TrieInv t1
  nsEq : t1.ns = t.ns
  pfEq : t1.store.putFails = t.store.putFails
  qtyLe : t.qty ≤ t1.qty
  qtyUb : t1.qty ≤ t.qty + K.length
  endNode : ∃ nd, storedNode t1 n1 = some nd
  endLe : n1 ≤ t1.qty
  endTraced : n1 = 0 ∨ TraceHasEdgeTo t1.store.trace n1
  followEq : followStore t1 n K = some n1
  preserve : ∀ m nd, storedNode t m = some nd → ∃ nd2, storedNode t1 m = some nd2
    ∧ nd2.value = nd.value ∧ (∀ b2 j, getEdge nd b2 = some j → getEdge nd2 b2 = some j)
  freshHi : ∀ m nd, m < 4294967296 → storedNode t1 m = some nd →
    storedNode t m = none → t.qty < m
  dense : ∀ m, t.qty < m → m ≤ t1.qty → ∃ nd, storedNode t1 m = some nd
  dataFrame : ∀ k, t1.store.data k = t.store.data k ∨ ∃ m, k = nodeKey t.ns m
  traceExt : ∃ tr2, t1.store.trace = t.store.trace ++ tr2
  followMatch : ∀ n0, followStore t n K = some n0 → n1 = n0
  followNew : followStore t n K = none → t.qty < n1

/-- Facts established by a completed insert. -/
structure InsertOut (t : Trie) (K V : List Nat) (t4 : Trie) : Prop where
  inv : TrieInv t4
  nsEq : t4.ns = t.ns
  qtyLe : t.qty ≤ t4.qty
  qtyUb : t4.qty ≤ t.qty + K.length
  nsBound : t.ns.length + 15 ≤ 1024
  keyCellEq : keyCell t4 K = keyCell t K ++ (le32 V.length ++ V)
  preserve : ∀ m nd, storedNode t m = some nd → ∃ nd2, storedNode t4 m = some nd2
    ∧ nd2.value = nd.value ∧ (∀ b2 j, getEdge nd b2 = some j → getEdge nd2 b2 = some j)
  freshHi : ∀ m nd, m < 4294967296 → storedNode t4 m = some nd →
    storedNode t m = none → t.qty < m
  traceExt : ∃ tr2, t4.store.trace = t.store.trace ++ tr2
  traceAll : TraceOK t.ns t4.store.trace


theorem le32_length (n : Nat) : (le32 n).length = 4 := rfl

theorem le64_length (n : Nat) : (le64 n).length = 8 := rfl

theorem leRead4_le32 (n : Nat) : leRead4 (le32 n) = n % 4294967296 := by
  simp only [le32, leRead4, List.getD_cons_zero, List.getD_cons_succ]
  omega

theorem le64_inj {a b : Nat} (ha : a < 18446744073709551616)
    (hb : b < 18446744073709551616) (h : le64 a = le64 b) : a = b := by
  simp only [le64, List.cons.injEq, and_true] at h
  omega

theorem valuesSuffix_length : valuesSuffix.length = 7 := rfl

theorem nodeKey_length (ns : List Nat) (n : Nat) :
    (nodeKey ns n).length = ns.length + 8 := by
  simp [nodeKey, le64_length]

theorem valueKey_length (ns : List Nat) (n : Nat) :
    (valueKey ns n).length = ns.length + 15 := by
  simp [valueKey, le64_length, valuesSuffix]

theorem nodeKey_ne_ns (ns : List Nat) (n : Nat) : nodeKey ns n ≠ ns := by
  intro h
  have := congrArg List.length h
  rw [nodeKey_length] at this
  omega

theorem valueKey_ne_ns (ns : List Nat) (n : Nat) : valueKey ns n ≠ ns := by
  intro h
  have := congrArg List.length h
  rw [valueKey_length] at this
  omega

theorem valueKey_ne_nodeKey (ns : List Nat) (n m : Nat) :
    valueKey ns n ≠ nodeKey ns m := by
  intro h
  have := congrArg List.length h
  rw [valueKey_length, nodeKey_length] at this
  omega

theorem nodeKey_inj {ns : List Nat} {a b : Nat} (ha : a < 18446744073709551616)
    (hb : b < 18446744073709551616) (h : nodeKey ns a = nodeKey ns b) : a = b := by
  exact le64_inj ha hb (List.append_cancel_left h)

theorem valueKey_inj {ns : List Nat} {a b : Nat} (ha : a < 18446744073709551616)
    (hb : b < 18446744073709551616) (h : valueKey ns a = valueKey ns b) : a = b := by
  unfold valueKey at h
  rw [List.append_assoc, List.append_assoc] at h
  have h2 := List.append_cancel_left h
  exact le64_inj ha hb (List.append_cancel_right h2)

theorem encRecord_length (v : List Nat) : (encRecord v).length = 4 + v.length := by
  simp [encRecord, le32]
  omega

theorem wfCell_cons (v : List Nat) (vs : List (List Nat)) :
    wfCell (v :: vs) = encRecord v ++ wfCell vs := rfl

theorem wfCell_append (vs ws : List (List Nat)) :
    wfCell (vs ++ ws) = wfCell vs ++ wfCell ws := by
  induction vs with
  | nil => rfl
  | cons v vs ih => simp [wfCell_cons, ih]

theorem wfCell_eq_nil {vs : List (List Nat)} (h : wfCell vs = []) : vs = [] := by
  cases vs with
  | nil => rfl
  | cons v vs =>
    rw [wfCell_cons] at h
    have := congrArg List.length h
    rw [List.length_append, encRecord_length] at this
    simp at this

theorem itemsPassAux_item {buf : List Nat} {pos : Nat} {v : List Nat} {p2 : Nat}
    (h : itemsNext buf pos = .item v p2) :
    itemsPassAux buf pos = (itemsPassAux buf p2).map (v :: ·) := by
  rw [itemsPassAux]
  split
  · rename_i h2; rw [h] at h2; cases h2
  · rename_i h2; rw [h] at h2; cases h2
  · rename_i h2; rw [h] at h2; cases h2
  · rename_i v2 p3 h2; rw [h] at h2; cases h2; rfl

theorem itemsPassAux_stop {buf : List Nat} {pos : Nat}
    (h : itemsNext buf pos = .stop) : itemsPassAux buf pos = some [] := by
  rw [itemsPassAux]
  split
  · rfl
  · rfl
  · rename_i h2; rw [h] at h2; cases h2
  · rename_i v2 p3 h2; rw [h] at h2; cases h2

theorem itemsPassAux_skip {buf : List Nat} {pos p2 : Nat}
    (h : itemsNext buf pos = .skip p2) : itemsPassAux buf pos = some [] := by
  rw [itemsPassAux]
  split
  · rfl
  · rfl
  · rename_i h2; rw [h] at h2; cases h2
  · rename_i v2 p3 h2; rw [h] at h2; cases h2

theorem itemsNext_end {buf : List Nat} {pos : Nat} (h : buf.length ≤ pos + 4) :
    itemsNext buf pos = .stop := by
  unfold itemsNext
  rw [if_pos h]

theorem itemsNext_at_record (pre v rest : List Nat)
    (hv : v ≠ []) (hlen : v.length < 4294967296) :
    itemsNext (pre ++ (encRecord v ++ rest)) pre.length =
      if validUtf8 v then Step.item v (pre.length + 4 + v.length)
      else Step.skip (pre.length + 4 + v.length) := by
  have hvlen : 1 ≤ v.length := by
    cases v with
    | nil => exact absurd rfl hv
    | cons a l => simp
  have hlen1 : (pre ++ (encRecord v ++ rest)).length
      = pre.length + 4 + v.length + rest.length := by
    simp [encRecord, le32]
    omega
  have hdrop1 : (pre ++ (encRecord v ++ rest)).drop pre.length = encRecord v ++ rest :=
    List.drop_left pre _
  have htake1 : (encRecord v ++ rest).take 4 = le32 v.length := by
    have he : encRecord v ++ rest = le32 v.length ++ (v ++ rest) := by
      simp [encRecord]
    rw [he]
    have h4 : (4 : Nat) = (le32 v.length).length := rfl
    rw [h4, List.take_left]
  have hdrop2 : (pre ++ (encRecord v ++ rest)).drop (pre.length + 4) = v ++ rest := by
    have he : pre ++ (encRecord v ++ rest) = (pre ++ le32 v.length) ++ (v ++ rest) := by
      simp [encRecord]
    rw [he]
    have h4 : pre.length + 4 = (pre ++ le32 v.length).length := by
      simp [le32]
    rw [h4, List.drop_left]
  have htake2 : (v ++ rest).take v.length = v := List.take_left v rest
  unfold itemsNext
  rw [hdrop1, htake1, leRead4_le32, Nat.mod_eq_of_lt hlen, hlen1]
  rw [if_neg (by omega), if_neg (by omega), hdrop2, htake2]

theorem itemsPassAux_wf (vs : List (List Nat)) :
    ∀ pre rest : List Nat,
    (∀ v ∈ vs, v ≠ [] ∧ validUtf8 v = true ∧ v.length < 4294967296) →
    itemsPassAux (pre ++ (wfCell vs ++ rest)) pre.length
      = (itemsPassAux (pre ++ (wfCell vs ++ rest))
          (pre.length + (wfCell vs).length)).map (vs ++ ·) := by
  induction vs with
  | nil =>
    intro pre rest hwf
    show itemsPassAux (pre ++ ([] ++ rest)) pre.length
      = (itemsPassAux (pre ++ ([] ++ rest)) (pre.length + 0)).map ([] ++ ·)
    have : ∀ o : Option (List (List Nat)), o.map ([] ++ ·) = o := by
      intro o; cases o <;> simp
    rw [this]
    rfl
  | cons v vs2 ih =>
    intro pre rest hwf
    obtain ⟨hv, hu, hb⟩ := hwf v (by simp)
    have hwf2 : ∀ w ∈ vs2, w ≠ [] ∧ validUtf8 w = true ∧ w.length < 4294967296 := by
      intro w hw; exact hwf w (by simp [hw])
    have hassoc : pre ++ (wfCell (v :: vs2) ++ rest)
        = pre ++ (encRecord v ++ (wfCell vs2 ++ rest)) := by
      rw [wfCell_cons, List.append_assoc]
    rw [hassoc]
    have hstep := itemsNext_at_record pre v (wfCell vs2 ++ rest) hv hb
    rw [if_pos hu] at hstep
    rw [itemsPassAux_item hstep]
    have hpre2 : pre.length + 4 + v.length = (pre ++ encRecord v).length := by
      simp [encRecord_length]
      omega
    have hassoc2 : pre ++ (encRecord v ++ (wfCell vs2 ++ rest))
        = (pre ++ encRecord v) ++ (wfCell vs2 ++ rest) := by
      rw [List.append_assoc]
    rw [hpre2, hassoc2, ih (pre ++ encRecord v) rest hwf2]
    have hposeq : (pre ++ encRecord v).length + (wfCell vs2).length
        = pre.length + (wfCell (v :: vs2)).length := by
      simp [wfCell_cons, encRecord_length]
      omega
    rw [hposeq]
    cases itemsPassAux ((pre ++ encRecord v) ++ (wfCell vs2 ++ rest))
        (pre.length + (wfCell (v :: vs2)).length) with
    | none => rfl
    | some l => rfl

theorem itemsPassAux_atEnd (buf : List Nat) : itemsPassAux buf buf.length = some [] :=
  itemsPassAux_stop (itemsNext_end (by omega))

theorem itemsPass_wfCell (vs : List (List Nat))
    (hwf : ∀ v ∈ vs, v ≠ [] ∧ validUtf8 v = true ∧ v.length < 4294967296) :
    itemsPass (wfCell vs) = some vs := by
  have h := itemsPassAux_wf vs [] [] hwf
  simp only [List.nil_append, List.append_nil, List.length_nil, Nat.zero_add] at h
  rw [itemsPass, h]
  rw [itemsPassAux_stop (itemsNext_end (by omega))]
  simp

theorem itemsPass_wf_bad (vs1 : List (List Nat)) (bad tail : List Nat)
    (hwf : ∀ v ∈ vs1, v ≠ [] ∧ validUtf8 v = true ∧ v.length < 4294967296)
    (hbad : validUtf8 bad = false) (hblen : bad.length < 4294967296) :
    itemsPass (wfCell vs1 ++ (encRecord bad ++ tail)) = some vs1 := by
  have hbne : bad ≠ [] := by
    intro h
    rw [h] at hbad
    cases hbad
  have h := itemsPassAux_wf vs1 [] (encRecord bad ++ tail) hwf
  simp only [List.nil_append, List.length_nil, Nat.zero_add] at h
  have hstep := itemsNext_at_record (wfCell vs1) bad tail hbne hblen
  rw [if_neg (by simp [hbad])] at hstep
  rw [itemsPass, h, itemsPassAux_skip hstep]
  simp

theorem mkKey_node (ns : List Nat) (n : Nat) (h : ns.length + 8 ≤ 1024) :
    mkKey ns (le64 n) = some (nodeKey ns n) := by
  unfold mkKey
  rw [le64_length, if_pos h]
  rfl

theorem mkKey_value (ns : List Nat) (n : Nat) (h : ns.length + 15 ≤ 1024) :
    mkKey ns (le64 n ++ valuesSuffix) = some (valueKey ns n) := by
  unfold mkKey
  have h15 : (le64 n ++ valuesSuffix).length = 15 := by
    simp [le64, valuesSuffix]
  rw [h15, if_pos h]
  unfold valueKey
  rw [List.append_assoc]

theorem mkKey_some_len {ns suf : List Nat} {k : List Nat}
    (h : mkKey ns suf = some k) : ns.length + suf.length ≤ 1024 := by
  unfold mkKey at h
  by_cases hc : ns.length + suf.length ≤ 1024
  · exact hc
  · rw [if_neg hc] at h
    cases h

theorem getEdge_fresh (v b : Nat) :
    getEdge ⟨v, List.replicate 256 none⟩ b = none := by
  unfold getEdge List.getD
  rw [List.get?_eq_getElem?, List.getElem?_replicate]
  rcases Nat.lt_or_ge b 256 with h | h
  · rw [if_pos h]
    rfl
  · rw [if_neg (by omega)]
    rfl

theorem getEdge_setEdge_self {nd : TrieNode} {b m : Nat} (hb : b < 256)
    (hlen : nd.next.length = 256) : getEdge (setEdge nd b m) b = some m := by
  unfold getEdge setEdge
  simp [List.getD, List.getElem?_set_self, hlen, hb]

theorem getEdge_setEdge_other {nd : TrieNode} {b m b2 : Nat} (h : b2 ≠ b) :
    getEdge (setEdge nd b m) b2 = getEdge nd b2 := by
  unfold getEdge setEdge
  simp [List.getD, List.getElem?_set_ne (fun hh => h hh.symm)]

theorem getEdge_setEdge_cases {nd : TrieNode} {b m b2 j : Nat}
    (h : getEdge (setEdge nd b m) b2 = some j) :
    getEdge nd b2 = some j ∨ (b2 = b ∧ j = m) := by
  by_cases hb : b2 = b
  · subst hb
    unfold getEdge setEdge at h
    rcases Nat.lt_or_ge b2 nd.next.length with hl | hl
    · right
      constructor
      · rfl
      · simp [List.getD, List.getElem?_set_self, hl] at h
        omega
    · left
      rw [List.set_eq_of_length_le (by omega)] at h
      exact h
  · left
    rw [← getEdge_setEdge_other hb]
    exact h

theorem mem_of_getEdge {nd : TrieNode} {b m : Nat} (h : getEdge nd b = some m) :
    some m ∈ nd.next := by
  unfold getEdge at h
  unfold List.getD at h
  rw [List.get?_eq_getElem?] at h
  cases hg : nd.next[b]? with
  | none => rw [hg] at h; cases h
  | some x =>
    rw [hg] at h
    simp at h
    subst h
    obtain ⟨hlt, hEq⟩ := List.getElem?_eq_some.mp hg
    rw [← hEq]
    exact List.getElem_mem hlt

theorem setEdge_length (nd : TrieNode) (b m : Nat) :
    (setEdge nd b m).next.length = nd.next.length := by
  simp [setEdge]

theorem traceHasEdgeTo_mono {tr tr2 : List (List Nat × StoredVal)} {m : Nat}
    (h : TraceHasEdgeTo tr m) : TraceHasEdgeTo (tr ++ tr2) m := by
  obtain ⟨e, he, nd, h1, h2⟩ := h
  exact ⟨e, List.mem_append_left _ he, nd, h1, h2⟩

theorem traceOK_snoc {ns : List Nat} {tr : List (List Nat × StoredVal)}
    {a : List Nat × StoredVal} (h : TraceOK ns tr)
    (ha : ∀ n nd, 1 ≤ n → n < 4294967296 → a = (nodeKey ns n, .node nd) →
      TraceHasEdgeTo tr n) :
    TraceOK ns (tr ++ [a]) := by
  intro pre e post heq n nd h1 h2 he
  rcases List.eq_nil_or_concat post with hp | ⟨ps, lastE, hp⟩
  · subst hp
    have hlen : tr.length = pre.length := by
      have hl := congrArg List.length heq
      simp at hl
      omega
    obtain ⟨h3, h4⟩ := List.append_inj heq hlen
    subst h3
    have : a = e := by
      simpa using h4
    exact ha n nd h1 h2 (this ▸ he)
  · subst hp
    have heq2 : tr ++ [a] = (pre ++ e :: ps) ++ [lastE] := by
      rw [heq]
      simp
    have hlen : tr.length = (pre ++ e :: ps).length := by
      have hl := congrArg List.length heq2
      simp at hl
      simp
      omega
    obtain ⟨h3, h4⟩ := List.append_inj heq2 hlen
    exact h pre e ps h3 n nd h1 h2 he

theorem followStore_congr {t t2 : Trie}
    (h : ∀ m, storedNode t2 m = storedNode t m) :
    ∀ K (n : Nat), followStore t2 n K = followStore t n K := by
  intro K
  induction K with
  | nil => intro n; rfl
  | cons b rest ih =>
    intro n
    simp only [followStore]
    rw [h n]
    cases storedNode t n with
    | none => rfl
    | some nd =>
      show (match getEdge nd b with
            | some m => followStore t2 m rest
            | none => none)
         = (match getEdge nd b with
            | some m => followStore t m rest
            | none => none)
      cases getEdge nd b with
      | none => rfl
      | some m => exact ih m

theorem dbPut_some {s : Store} {k : List Nat} {v : StoredVal} {s2 : Store}
    (h : dbPut s k v = some s2) :
    s2.data = (fun k2 => if k2 = k then some v else s.data k2) ∧
    s2.putFails = s.putFails ∧ s2.trace = s.trace ++ [(k, v)] := by
  unfold dbPut at h
  by_cases hf : s.putFails k = true
  · rw [if_pos hf] at h
    cases h
  · rw [if_neg hf] at h
    cases h
    exact ⟨rfl, rfl, rfl⟩

theorem cache_get_spec {t : Trie} {n : Nat} {r : Option TrieNode} {t1 : Trie}
    (h : t.cache_get_node_at n = some (r, t1)) :
    t1.store = t.store ∧ t1.ns = t.ns ∧ t1.qty = t.qty ∧ CacheGrew t t1 := by
  unfold Trie.cache_get_node_at at h
  cases hc : t.cache n with
  | some nd =>
    rw [hc] at h
    cases h
    exact ⟨rfl, rfl, rfl, fun m => Or.inl rfl⟩
  | none =>
    rw [hc] at h
    unfold Trie.get_trie_node_at at h
    cases hk : mkKey t.ns (le64 n) with
    | none =>
      rw [hk] at h
      cases h
    | some k =>
      rw [hk] at h
      have hkl := mkKey_some_len hk
      rw [le64_length] at hkl
      have hkey : k = nodeKey t.ns n := by
        have h2 := mkKey_node t.ns n hkl
        rw [hk] at h2
        cases h2
        rfl
      subst hkey
      dsimp only at h
      cases hd : t.store.data (nodeKey t.ns n) with
      | none =>
        rw [hd] at h
        cases h
        exact ⟨rfl, rfl, rfl, fun m => Or.inl rfl⟩
      | some sv =>
        rw [hd] at h
        cases sv with
        | bytes b =>
          cases h
          exact ⟨rfl, rfl, rfl, fun m => Or.inl rfl⟩
        | meta q =>
          cases h
          exact ⟨rfl, rfl, rfl, fun m => Or.inl rfl⟩
        | node nd =>
          cases h
          refine ⟨rfl, rfl, rfl, fun m => ?_⟩
          by_cases hm : m = n
          · subst hm
            right
            refine ⟨hc, nd, ?_, by simp⟩
            unfold storedNode
            rw [hd]
          · left
            simp [hm]

theorem cache_get_result {t : Trie} {n : Nat} {r : Option TrieNode} {t1 : Trie}
    (hco : ∀ m nd, m < 4294967296 → t.cache m = some nd → storedNode t m = some nd)
    (hn : n < 4294967296)
    (h : t.cache_get_node_at n = some (r, t1)) : r = storedNode t n := by
  unfold Trie.cache_get_node_at at h
  cases hc : t.cache n with
  | some nd =>
    rw [hc] at h
    cases h
    exact (hco n nd hn hc).symm
  | none =>
    rw [hc] at h
    unfold Trie.get_trie_node_at at h
    cases hk : mkKey t.ns (le64 n) with
    | none =>
      rw [hk] at h
      cases h
    | some k =>
      rw [hk] at h
      have hkl := mkKey_some_len hk
      rw [le64_length] at hkl
      have hkey : k = nodeKey t.ns n := by
        have h2 := mkKey_node t.ns n hkl
        rw [hk] at h2
        cases h2
        rfl
      subst hkey
      dsimp only at h
      unfold storedNode
      cases hd : t.store.data (nodeKey t.ns n) with
      | none =>
        rw [hd] at h
        cases h
        rfl
      | some sv =>
        rw [hd] at h
        cases sv with
        | bytes b => cases h; rfl
        | meta q => cases h; rfl
        | node nd => cases h; rfl

theorem cache_get_total (t : Trie) (n : Nat) (hk : t.ns.length + 8 ≤ 1024) :
    ∃ r t1, t.cache_get_node_at n = some (r, t1) := by
  unfold Trie.cache_get_node_at
  cases hc : t.cache n with
  | some nd => exact ⟨some nd, t, rfl⟩
  | none =>
    unfold Trie.get_trie_node_at
    rw [mkKey_node t.ns n hk]
    dsimp only
    cases hd : t.store.data (nodeKey t.ns n) with
    | none => exact ⟨none, t, rfl⟩
    | some sv =>
      cases sv with
      | bytes b => exact ⟨none, t, rfl⟩
      | meta q => exact ⟨none, t, rfl⟩
      | node nd => exact ⟨some nd, _, rfl⟩

theorem trieInv_transport {t t2 : Trie} (hI : TrieInv t)
    (hs : t2.store = t.store) (hns : t2.ns = t.ns) (hq : t2.qty = t.qty)
    (hc : ∀ n nd, n < 4294967296 → t2.cache n = some nd →
      storedNode t2 n = some nd) :
    TrieInv t2 := by
  have hsn : ∀ m, storedNode t2 m = storedNode t m := by
    intro m
    unfold storedNode
    rw [hs, hns]
  constructor
  · obtain ⟨nd, h⟩ := hI.rootEx
    exact ⟨nd, by rw [hsn 0]; exact h⟩
  · exact hc
  · rw [hq]
    exact hI.qtyBound
  · intro n nd h
    rw [hsn n] at h
    exact hI.nodeLen n nd h
  · intro n nd hn h
    rw [hsn n] at h
    rw [hq]
    exact hI.nodesBound n nd hn h
  · intro n nd b m h he
    rw [hsn n] at h
    rw [hq]
    exact hI.edgeBound n nd b m h he
  · intro n nd b m h he
    rw [hsn n] at h
    rw [hsn m]
    exact hI.edgeTarget n nd b m h he
  · intro m hm hqm
    rw [hs, hns]
    rw [hq] at hqm
    exact hI.freshCell m hm hqm
  · intro n nd b m h he
    rw [hsn n] at h
    rw [hs]
    exact hI.edgeTraced n nd b m h he
  · rw [hs, hns]
    exact hI.traceOK

theorem cache_get_inv {t : Trie} {n : Nat} {r : Option TrieNode} {t1 : Trie}
    (hI : TrieInv t) (h : t.cache_get_node_at n = some (r, t1)) : TrieInv t1 := by
  obtain ⟨hs, hns, hq, hcg⟩ := cache_get_spec h
  refine trieInv_transport hI hs hns hq ?_
  intro m nd hm hcm
  have hsn : storedNode t1 m = storedNode t m := by
    unfold storedNode
    rw [hs, hns]
  rw [hsn]
  rcases hcg m with h2 | ⟨h2, nd2, h3, h4⟩
  · rw [h2] at hcm
    exact hI.cacheOK m nd hm hcm
  · rw [h4] at hcm
    cases hcm
    exact h3

theorem cache_put_spec {t : Trie} {n : Nat} {nd : TrieNode} {t2 : Trie}
    (h : t.cache_put_node_at n nd = some t2) :
    t2.ns = t.ns ∧ t2.qty = t.qty ∧
    t2.store.data = (fun k2 => if k2 = nodeKey t.ns n then some (.node nd)
      else t.store.data k2) ∧
    t2.store.putFails = t.store.putFails ∧
    t2.store.trace = t.store.trace ++ [(nodeKey t.ns n, .node nd)] ∧
    t2.cache = (fun m => if m = n then some nd else t.cache m) ∧
    t.ns.length + 8 ≤ 1024 := by
  unfold Trie.cache_put_node_at Trie.put_trie_node_at at h
  dsimp only at h
  cases hk : mkKey t.ns (le64 n) with
  | none =>
    rw [hk] at h
    cases h
  | some k =>
    rw [hk] at h
    have hkl := mkKey_some_len hk
    rw [le64_length] at hkl
    have hkey : k = nodeKey t.ns n := by
      have h2 := mkKey_node t.ns n hkl
      rw [hk] at h2
      cases h2
      rfl
    subst hkey
    dsimp only at h
    cases hp : dbPut t.store (nodeKey t.ns n) (.node nd) with
    | none =>
      rw [hp] at h
      cases h
    | some s2 =>
      rw [hp] at h
      cases h
      obtain ⟨hd, hf, htr⟩ := dbPut_some hp
      exact ⟨rfl, rfl, hd, hf, htr, rfl, hkl⟩

theorem set_trie_data_frame (t : Trie) :
    (Trie.set_trie_data t).ns = t.ns ∧ (Trie.set_trie_data t).qty = t.qty ∧
    (Trie.set_trie_data t).cache = t.cache ∧
    (Trie.set_trie_data t).store.putFails = t.store.putFails ∧
    (∀ k, k ≠ t.ns → (Trie.set_trie_data t).store.data k = t.store.data k) ∧
    ((Trie.set_trie_data t).store.trace = t.store.trace ∨
      (Trie.set_trie_data t).store.trace
        = t.store.trace ++ [(t.ns, .meta t.qty)]) := by
  unfold Trie.set_trie_data
  cases hp : dbPut t.store t.ns (.meta t.qty) with
  | none => exact ⟨rfl, rfl, rfl, rfl, fun k _ => rfl, Or.inl rfl⟩
  | some s2 =>
    obtain ⟨hd, hf, htr⟩ := dbPut_some hp
    refine ⟨rfl, rfl, rfl, hf, ?_, Or.inr htr⟩
    intro k hk
    rw [hd]
    simp [hk]

theorem append_value_spec {t : Trie} {n : Nat} {v : List Nat} {t2 : Trie}
    (h : t.append_value n v = some t2) :
    t2.ns = t.ns ∧ t2.qty = t.qty ∧ t2.cache = t.cache ∧
    t2.store.putFails = t.store.putFails ∧
    t2.store.data = (fun k2 => if k2 = valueKey t.ns n
      then some (.bytes (cellAt t n ++ (le32 v.length ++ v)))
      else t.store.data k2) ∧
    t2.store.trace = t.store.trace
      ++ [(valueKey t.ns n, .bytes (cellAt t n ++ (le32 v.length ++ v)))] ∧
    t.ns.length + 15 ≤ 1024 := by
  unfold Trie.append_value at h
  cases hk : mkKey t.ns (le64 n ++ valuesSuffix) with
  | none =>
    rw [hk] at h
    cases h
  | some k =>
    rw [hk] at h
    have hkl := mkKey_some_len hk
    have h15 : (le64 n ++ valuesSuffix).length = 15 := by
      simp [le64, valuesSuffix]
    rw [h15] at hkl
    have hkey : k = valueKey t.ns n := by
      have h2 := mkKey_value t.ns n hkl
      rw [hk] at h2
      cases h2
      rfl
    subst hkey
    dsimp only at h
    have hold : (match t.store.data (valueKey t.ns n) with
        | some (.bytes b) => b
        | _ => []) = cellAt t n := by
      unfold cellAt
      rfl
    rw [hold] at h
    cases hp : dbPut t.store (valueKey t.ns n)
        (.bytes (cellAt t n ++ (le32 v.length ++ v))) with
    | none =>
      rw [List.append_assoc] at h
      rw [hp] at h
      cases h
    | some s2 =>
      rw [List.append_assoc] at h
      rw [hp] at h
      cases h
      obtain ⟨hd, hf, htr⟩ := dbPut_some hp
      exact ⟨rfl, rfl, rfl, hf, hd, htr, hkl⟩

theorem storedNode_after_nodePut {t t2 : Trie} {n0 : Nat} {nd : TrieNode}
    (hns : t2.ns = t.ns)
    (hd : t2.store.data = fun k2 => if k2 = nodeKey t.ns n0 then some (.node nd)
      else t.store.data k2)
    (hn0 : n0 < 18446744073709551616) :
    (storedNode t2 n0 = some nd) ∧
    (∀ m, m < 18446744073709551616 → m ≠ n0 → storedNode t2 m = storedNode t m) ∧
    (∀ m, cellAt t2 m = cellAt t m) ∧
    (∀ k, k ≠ nodeKey t.ns n0 → t2.store.data k = t.store.data k) := by
  refine ⟨?_, ?_, ?_, ?_⟩
  · unfold storedNode
    rw [hns, hd]
    simp
  · intro m hm hne
    unfold storedNode
    rw [hns, hd]
    have : nodeKey t.ns m ≠ nodeKey t.ns n0 := by
      intro hk
      exact hne (nodeKey_inj hm hn0 hk)
    simp only [if_neg this]
  · intro m
    unfold cellAt
    rw [hns, hd]
    simp only [if_neg (valueKey_ne_nodeKey t.ns m n0)]
  · intro k hk
    rw [hd]
    simp only [if_neg hk]

theorem storedNode_after_valuePut {t t2 : Trie} {n0 : Nat} {bs : List Nat}
    (hns : t2.ns = t.ns)
    (hd : t2.store.data = fun k2 => if k2 = valueKey t.ns n0 then some (.bytes bs)
      else t.store.data k2)
    (hn0 : n0 < 18446744073709551616) :
    (∀ m, storedNode t2 m = storedNode t m) ∧
    (cellAt t2 n0 = bs) ∧
    (∀ m, m < 18446744073709551616 → m ≠ n0 → cellAt t2 m = cellAt t m) ∧
    (∀ m, m < 18446744073709551616 → m ≠ n0 →
      t2.store.data (valueKey t.ns m) = t.store.data (valueKey t.ns m)) := by
  refine ⟨?_, ?_, ?_, ?_⟩
  · intro m
    unfold storedNode
    rw [hns, hd]
    have hnk : nodeKey t.ns m ≠ valueKey t.ns n0 := by
      intro hh
      exact valueKey_ne_nodeKey t.ns n0 m hh.symm
    simp only [if_neg hnk]
  · unfold cellAt
    rw [hns, hd]
    simp
  · intro m hm hne
    unfold cellAt
    rw [hns, hd]
    have : valueKey t.ns m ≠ valueKey t.ns n0 := by
      intro hk
      exact hne (valueKey_inj hm hn0 hk)
    simp only [if_neg this]
  · intro m hm hne
    rw [hd]
    have : valueKey t.ns m ≠ valueKey t.ns n0 := by
      intro hk
      exact hne (valueKey_inj hm hn0 hk)
    simp only [if_neg this]

theorem storedNode_after_metaPut (t : Trie) :
    (∀ m, storedNode (Trie.set_trie_data t) m = storedNode t m) ∧
    (∀ m, cellAt (Trie.set_trie_data t) m = cellAt t m) := by
  obtain ⟨hns, hq, hc, hf, hdk, htr⟩ := set_trie_data_frame t
  constructor
  · intro m
    unfold storedNode
    rw [hns, hdk _ (nodeKey_ne_ns t.ns m)]
  · intro m
    unfold cellAt
    rw [hns, hdk _ (valueKey_ne_ns t.ns m)]

theorem traceHasEdgeTo_of_eq {tr tr2 : List (List Nat × StoredVal)} {m : Nat}
    (h : TraceHasEdgeTo tr m) (he : tr2 = tr) : TraceHasEdgeTo tr2 m := he ▸ h

theorem set_trie_data_inv {t : Trie} (hI : TrieInv t) :
    TrieInv (Trie.set_trie_data t) := by
  obtain ⟨hns, hq, hc, hf, hdk, htr⟩ := set_trie_data_frame t
  obtain ⟨hsn, hcell⟩ := storedNode_after_metaPut t
  have hTr : ∀ m, TraceHasEdgeTo t.store.trace m →
      TraceHasEdgeTo (Trie.set_trie_data t).store.trace m := by
    intro m hm
    rcases htr with h2 | h2
    · rw [h2]
      exact hm
    · rw [h2]
      exact traceHasEdgeTo_mono hm
  constructor
  · obtain ⟨nd, h⟩ := hI.rootEx
    exact ⟨nd, by rw [hsn 0]; exact h⟩
  · intro n nd hn hcm
    rw [hc] at hcm
    rw [hsn n]
    exact hI.cacheOK n nd hn hcm
  · rw [hq]
    exact hI.qtyBound
  · intro n nd h
    rw [hsn n] at h
    exact hI.nodeLen n nd h
  · intro n nd hn h
    rw [hsn n] at h
    rw [hq]
    exact hI.nodesBound n nd hn h
  · intro n nd b m h he
    rw [hsn n] at h
    rw [hq]
    exact hI.edgeBound n nd b m h he
  · intro n nd b m h he
    rw [hsn n] at h
    rw [hsn m]
    exact hI.edgeTarget n nd b m h he
  · intro m hm hqm
    rw [hq] at hqm
    rw [hns, hdk _ (valueKey_ne_ns t.ns m)]
    exact hI.freshCell m hm hqm
  · intro n nd b m h he
    rw [hsn n] at h
    exact hTr m (hI.edgeTraced n nd b m h he)
  · rw [hns]
    rcases htr with h2 | h2
    · rw [h2]
      exact hI.traceOK
    · rw [h2]
      refine traceOK_snoc hI.traceOK ?_
      intro n nd h1 h2b heq
      have hc2 := congrArg Prod.snd heq
      simp at hc2

theorem append_value_inv {t : Trie} {n0 : Nat} {v : List Nat} {t2 : Trie}
    (hI : TrieInv t) (hn0 : n0 ≤ t.qty) (h : t.append_value n0 v = some t2) :
    TrieInv t2 := by
  obtain ⟨hns, hq, hc, hf, hd, htr, hkl⟩ := append_value_spec h
  have hn64 : n0 < 18446744073709551616 := by
    have := hI.qtyBound
    omega
  obtain ⟨hsn, _, _, hvk⟩ := storedNode_after_valuePut hns hd hn64
  constructor
  · obtain ⟨nd, h2⟩ := hI.rootEx
    exact ⟨nd, by rw [hsn 0]; exact h2⟩
  · intro n nd hn hcm
    rw [hc] at hcm
    rw [hsn n]
    exact hI.cacheOK n nd hn hcm
  · rw [hq]
    exact hI.qtyBound
  · intro n nd h2
    rw [hsn n] at h2
    exact hI.nodeLen n nd h2
  · intro n nd hn h2
    rw [hsn n] at h2
    rw [hq]
    exact hI.nodesBound n nd hn h2
  · intro n nd b m h2 he
    rw [hsn n] at h2
    rw [hq]
    exact hI.edgeBound n nd b m h2 he
  · intro n nd b m h2 he
    rw [hsn n] at h2
    rw [hsn m]
    exact hI.edgeTarget n nd b m h2 he
  · intro m hm hqm
    rw [hq] at hqm
    have hmne : m ≠ n0 := by omega
    rw [hns, hvk m (by omega) hmne]
    exact hI.freshCell m hm hqm
  · intro n nd b m h2 he
    rw [hsn n] at h2
    rw [htr]
    exact traceHasEdgeTo_mono (hI.edgeTraced n nd b m h2 he)
  · rw [hns, htr]
    refine traceOK_snoc hI.traceOK ?_
    intro n nd h1 h2b heq
    have hc2 := congrArg Prod.snd heq
    simp at hc2

theorem storedNode_congr {t ta : Trie} (hs : ta.store = t.store)
    (hns : ta.ns = t.ns) : ∀ m, storedNode ta m = storedNode t m := by
  intro m
  unfold storedNode
  rw [hs, hns]

theorem cacheGrew_trans {t ta t1 : Trie} (h1 : CacheGrew t ta) (h2 : CacheGrew ta t1)
    (hs : ta.store = t.store) (hns : ta.ns = t.ns) : CacheGrew t t1 := by
  intro n
  rcases h2 n with ha | ⟨ha, nd, hb, hcc⟩
  · rw [ha]
    exact h1 n
  · rcases h1 n with hd | ⟨hd, nd2, he, hf⟩
    · rw [hd] at ha
      rw [storedNode_congr hs hns] at hb
      exact Or.inr ⟨ha, nd, hb, hcc⟩
    · rw [hf] at ha
      cases ha

theorem getLoop_frame {K : List Nat} :
    ∀ {t : Trie} {n : Nat} {cur : TrieNode} {r : Option Nat} {t1 : Trie},
    getLoop t n cur K = some (r, t1) →
    t1.store = t.store ∧ t1.ns = t.ns ∧ t1.qty = t.qty ∧ CacheGrew t t1 := by
  induction K with
  | nil =>
    intro t n cur r t1 h
    cases h
    exact ⟨rfl, rfl, rfl, fun m => Or.inl rfl⟩
  | cons b rest ih =>
    intro t n cur r t1 h
    unfold getLoop at h
    cases hge : getEdge cur b with
    | none =>
      rw [hge] at h
      cases h
      exact ⟨rfl, rfl, rfl, fun m => Or.inl rfl⟩
    | some nextn =>
      rw [hge] at h
      dsimp only at h
      cases hcg : t.cache_get_node_at nextn with
      | none =>
        rw [hcg] at h
        cases h
      | some p =>
        rw [hcg] at h
        obtain ⟨ro, ta⟩ := p
        cases ro with
        | none => cases h
        | some nd =>
          obtain ⟨hs, hns, hq, hgrew⟩ := cache_get_spec hcg
          obtain ⟨hs2, hns2, hq2, hgrew2⟩ := ih h
          exact ⟨hs2.trans hs, hns2.trans hns, hq2.trans hq,
                 cacheGrew_trans hgrew hgrew2 hs hns⟩

theorem getLoop_follow {K : List Nat} :
    ∀ {t : Trie} {n : Nat} {cur : TrieNode}, TrieInv t →
    storedNode t n = some cur → n < 4294967296 →
    t.ns.length + 8 ≤ 1024 →
    ∃ t1, getLoop t n cur K = some (followStore t n K, t1) := by
  induction K with
  | nil =>
    intro t n cur hI hsn hn hns
    exact ⟨t, rfl⟩
  | cons b rest ih =>
    intro t n cur hI hsn hn hnsl
    have hfol : followStore t n (b :: rest)
        = (match getEdge cur b with
           | some m => followStore t m rest
           | none => none) := by
      show (match storedNode t n with
            | some nd =>
              match getEdge nd b with
              | some m => followStore t m rest
              | none => none
            | none => none) = _
      rw [hsn]
    cases hge : getEdge cur b with
    | none =>
      rw [hge] at hfol
      refine ⟨t, ?_⟩
      rw [hfol]
      show (match getEdge cur b with
            | some nextn =>
              match t.cache_get_node_at nextn with
              | some (some nd, t1) => getLoop t1 nextn nd rest
              | _ => none
            | none => some (none, t)) = some (none, t)
      rw [hge]
    | some m =>
      rw [hge] at hfol
      have hm := hI.edgeBound n cur b m hsn hge
      have hm32 : m < 4294967296 := by
        have := hI.qtyBound
        omega
      obtain ⟨nd0, hnd0⟩ := hI.edgeTarget n cur b m hsn hge
      obtain ⟨r, ta, hcg⟩ := cache_get_total t m hnsl
      have hr := cache_get_result hI.cacheOK hm32 hcg
      rw [hnd0] at hr
      subst hr
      obtain ⟨hs, hnsa, hq, hgrew⟩ := cache_get_spec hcg
      have hIa := cache_get_inv hI hcg
      have hsna : storedNode ta m = some nd0 := by
        rw [storedNode_congr hs hnsa]
        exact hnd0
      obtain ⟨t1, hloop⟩ := ih hIa hsna hm32 (by rw [hnsa]; exact hnsl)
      have hstep : getLoop t n cur (b :: rest) = getLoop ta m nd0 rest := by
        show (match getEdge cur b with
              | some nextn =>
                match t.cache_get_node_at nextn with
                | some (some nd, t1) => getLoop t1 nextn nd rest
                | _ => none
              | none => some (none, t)) = getLoop ta m nd0 rest
        rw [hge]
        dsimp only
        rw [hcg]
      refine ⟨t1, ?_⟩
      rw [hfol, hstep, hloop,
          followStore_congr (storedNode_congr hs hnsa) rest m]

theorem get_value_eq {t : Trie} {n : Nat} (hk : t.ns.length + 15 ≤ 1024) :
    t.get_value n = some ⟨cellAt t n⟩ := by
  unfold Trie.get_value cellAt
  rw [mkKey_value t.ns n hk]

theorem get_frame {t : Trie} {key : List Nat} {it : Items} {t2 : Trie}
    (h : Trie.get t key = some (it, t2)) :
    t2.store = t.store ∧ t2.ns = t.ns ∧ t2.qty = t.qty ∧ CacheGrew t t2 := by
  unfold Trie.get at h
  cases hcg : t.cache_get_node_at 0 with
  | none =>
    rw [hcg] at h
    cases h
  | some p =>
    rw [hcg] at h
    obtain ⟨ro, ta⟩ := p
    cases ro with
    | none => cases h
    | some root =>
      obtain ⟨hs, hns, hq, hgrew⟩ := cache_get_spec hcg
      dsimp only at h
      cases hloop : getLoop ta 0 root key with
      | none =>
        rw [hloop] at h
        cases h
      | some p2 =>
        rw [hloop] at h
        obtain ⟨ro2, tb⟩ := p2
        obtain ⟨hs2, hns2, hq2, hgrew2⟩ := getLoop_frame hloop
        cases ro2 with
        | none =>
          cases h
          exact ⟨hs2.trans hs, hns2.trans hns, hq2.trans hq,
                 cacheGrew_trans hgrew hgrew2 hs hns⟩
        | some n =>
          dsimp only at h
          cases hv : tb.get_value n with
          | none =>
            rw [hv] at h
            cases h
          | some it2 =>
            rw [hv] at h
            cases h
            exact ⟨hs2.trans hs, hns2.trans hns, hq2.trans hq,
                   cacheGrew_trans hgrew hgrew2 hs hns⟩

theorem get_inv {t : Trie} {key : List Nat} {it : Items} {t2 : Trie}
    (hI : TrieInv t) (h : Trie.get t key = some (it, t2)) : TrieInv t2 := by
  obtain ⟨hs, hns, hq, hgrew⟩ := get_frame h
  refine trieInv_transport hI hs hns hq ?_
  intro n nd hn hcm
  rw [storedNode_congr hs hns]
  rcases hgrew n with h2 | ⟨h2, nd2, h3, h4⟩
  · rw [h2] at hcm
    exact hI.cacheOK n nd hn hcm
  · rw [h4] at hcm
    cases hcm
    exact h3

theorem get_found {t : Trie} {key : List Nat} (hI : TrieInv t)
    (hns15 : t.ns.length + 15 ≤ 1024) :
    ∃ t2, Trie.get t key = some (⟨keyCell t key⟩, t2) := by
  have hns8 : t.ns.length + 8 ≤ 1024 := by omega
  obtain ⟨root0, hroot⟩ := hI.rootEx
  obtain ⟨r, ta, hcg⟩ := cache_get_total t 0 hns8
  have hr := cache_get_result hI.cacheOK (by omega) hcg
  rw [hroot] at hr
  subst hr
  obtain ⟨hs, hnsa, hq, hgrew⟩ := cache_get_spec hcg
  have hIa := cache_get_inv hI hcg
  have hsna : storedNode ta 0 = some root0 := by
    rw [storedNode_congr hs hnsa]
    exact hroot
  obtain ⟨t1, hloop⟩ := getLoop_follow (K := key) hIa hsna (by omega)
    (by rw [hnsa]; omega)
  obtain ⟨hs2, hns2, hq2, hgrew2⟩ := getLoop_frame hloop
  have hmain : Trie.get t key
      = (match getLoop ta 0 root0 key with
         | some (some n, t2) => (t2.get_value n).map (fun it => (it, t2))
         | some (none, t2) => some (⟨[]⟩, t2)
         | none => none) := by
    show (match t.cache_get_node_at 0 with
          | some (some root, t1) =>
            match getLoop t1 0 root key with
            | some (some n, t2) => (t2.get_value n).map (fun it => (it, t2))
            | some (none, t2) => some (⟨[]⟩, t2)
            | none => none
          | _ => none) = _
    rw [hcg]
  have hfeq : followStore ta 0 key = followStore t 0 key :=
    followStore_congr (storedNode_congr hs hnsa) key 0
  rw [hmain, hloop, hfeq]
  unfold keyCell
  cases hfol : followStore t 0 key with
  | none => exact ⟨t1, rfl⟩
  | some n =>
    refine ⟨t1, ?_⟩
    have hv := get_value_eq (t := t1) (n := n)
      (by rw [hns2, hnsa]; exact hns15)
    dsimp only
    rw [hv]
    have hcells : cellAt t1 n = cellAt t n := by
      unfold cellAt
      rw [hs2, hns2, hs, hnsa]
    rw [hcells]
    rfl


theorem alloc_spec {t t2 t3 : Trie} {n b : Nat} {cur : TrieNode}
    (hI : TrieInv t) (hsn : storedNode t n = some cur) (hn : n ≤ t.qty)
    (htr : n = 0 ∨ TraceHasEdgeTo t.store.trace n)
    (hb : b < 256) (hge : getEdge cur b = none)
    (hq32 : t.qty + 1 < 4294967296)
    (hcp1 : Trie.cache_put_node_at ⟨t.store, t.ns, t.qty + 1, t.cache⟩ n
      (setEdge cur b (t.qty + 1)) = some t2)
    (hcp2 : t2.cache_put_node_at (t.qty + 1) ⟨b, List.replicate 256 none⟩ = some t3) :
    AllocOut t n b cur t3 := by
  have hn32 : n < 4294967296 := by
    have := hI.qtyBound
    omega
  have hn64 : n < 18446744073709551616 := by omega
  have hq64 : t.qty + 1 < 18446744073709551616 := by omega
  set cur1 := setEdge cur b (t.qty + 1) with hcur1
  set child := (⟨b, List.replicate 256 none⟩ : TrieNode) with hchild
  obtain ⟨hns2, hq2, hdata2, hpf2, htrace2, hcache2, hkl2⟩ := cache_put_spec hcp1
  dsimp only at hns2 hq2 hdata2 hpf2 htrace2 hcache2 hkl2
  obtain ⟨hns3, hq3, hdata3, hpf3, htrace3, hcache3, hkl3⟩ := cache_put_spec hcp2
  rw [hns2] at hns3 hdata3 htrace3
  rw [hq2] at hq3
  have hkey_ne : nodeKey t.ns (t.qty + 1) ≠ nodeKey t.ns n := by
    intro hk
    have := nodeKey_inj hq64 hn64 hk
    omega
  have hlen256 : cur.next.length = 256 := hI.nodeLen n cur hsn
  have hedge1 : getEdge cur1 b = some (t.qty + 1) :=
    getEdge_setEdge_self hb hlen256
  have hsn3 : ∀ m, storedNode t3 m =
      (if nodeKey t.ns m = nodeKey t.ns (t.qty + 1) then some child
       else if nodeKey t.ns m = nodeKey t.ns n then some cur1
       else storedNode t m) := by
    intro m
    unfold storedNode
    rw [hns3, hdata3, hdata2]
    dsimp only
    by_cases hA : nodeKey t.ns m = nodeKey t.ns (t.qty + 1)
    · simp only [if_pos hA]
    · simp only [if_neg hA]
      by_cases hB : nodeKey t.ns m = nodeKey t.ns n
      · simp only [if_pos hB]
      · simp only [if_neg hB]
  have hpar : storedNode t3 n = some cur1 := by
    rw [hsn3 n, if_neg (fun hh => hkey_ne hh.symm), if_pos rfl]
  have hchl : storedNode t3 (t.qty + 1) = some child := by
    rw [hsn3 (t.qty + 1), if_pos rfl]
  have hother : ∀ m, nodeKey t.ns m ≠ nodeKey t.ns (t.qty + 1) →
      nodeKey t.ns m ≠ nodeKey t.ns n → storedNode t3 m = storedNode t m := by
    intro m h1 h2
    rw [hsn3 m, if_neg h1, if_neg h2]
  have htrace : t3.store.trace = t.store.trace
      ++ [(nodeKey t.ns n, .node cur1), (nodeKey t.ns (t.qty + 1), .node child)] := by
    rw [htrace3, htrace2]
    simp
  have hchildTraced : TraceHasEdgeTo t3.store.trace (t.qty + 1) := by
    rw [htrace]
    refine ⟨(nodeKey t.ns n, .node cur1), by simp, cur1, rfl, ?_⟩
    exact mem_of_getEdge hedge1
  have hpres : ∀ m nd, storedNode t m = some nd → ∃ nd2, storedNode t3 m = some nd2
      ∧ nd2.value = nd.value
      ∧ (∀ b2 j, getEdge nd b2 = some j → getEdge nd2 b2 = some j) := by
    intro m nd hm
    by_cases hA : nodeKey t.ns m = nodeKey t.ns (t.qty + 1)
    · exfalso
      have hmq : storedNode t (t.qty + 1) = some nd := by
        unfold storedNode at hm ⊢
        rw [← hA]
        exact hm
      have := hI.nodesBound (t.qty + 1) nd (by omega) hmq
      omega
    · by_cases hB : nodeKey t.ns m = nodeKey t.ns n
      · have hmn : storedNode t n = some nd := by
          unfold storedNode at hm ⊢
          rw [← hB]
          exact hm
        rw [hsn] at hmn
        cases hmn
        refine ⟨cur1, ?_, rfl, ?_⟩
        · rw [hsn3 m, if_neg hA, if_pos hB]
        · intro b2 j hj
          have hb2 : b2 ≠ b := by
            intro hh
            rw [hh, hge] at hj
            cases hj
          rw [hcur1, getEdge_setEdge_other hb2]
          exact hj
      · exact ⟨nd, by rw [hother m hA hB]; exact hm, rfl, fun b2 j hj => hj⟩
  have hfreshOne : ∀ m nd, m < 4294967296 → storedNode t3 m = some nd →
      storedNode t m = none → m = t.qty + 1 := by
    intro m nd hm2 h3 h0
    by_cases hA : nodeKey t.ns m = nodeKey t.ns (t.qty + 1)
    · exact nodeKey_inj (by omega) hq64 hA
    · by_cases hB : nodeKey t.ns m = nodeKey t.ns n
      · exfalso
        have : storedNode t m = some cur := by
          unfold storedNode at hsn ⊢
          rw [hB]
          exact hsn
        rw [h0] at this
        cases this
      · rw [hother m hA hB] at h3
        rw [h0] at h3
        cases h3
  refine ⟨?_, hns3, hq3, by rw [hpf3, hpf2], hchl, hchildTraced, hpar, hpres,
          hfreshOne, ?_, ?_⟩
  · constructor
    · obtain ⟨nd0, h0⟩ := hI.rootEx
      obtain ⟨nd2, h2, _, _⟩ := hpres 0 nd0 h0
      exact ⟨nd2, h2⟩
    · intro m nd hm hcm
      rw [hcache3, hcache2] at hcm
      dsimp only at hcm
      by_cases hmq : m = t.qty + 1
      · subst hmq
        rw [if_pos rfl] at hcm
        cases hcm
        exact hchl
      · rw [if_neg hmq] at hcm
        by_cases hmn : m = n
        · subst hmn
          rw [if_pos rfl] at hcm
          cases hcm
          exact hpar
        · rw [if_neg hmn] at hcm
          have h0 := hI.cacheOK m nd hm hcm
          obtain ⟨nd2, h2, hv2, he2⟩ := hpres m nd h0
          have hmA : nodeKey t.ns m ≠ nodeKey t.ns (t.qty + 1) := by
            intro hk
            exact hmq (nodeKey_inj (by omega) hq64 hk)
          have hmB : nodeKey t.ns m ≠ nodeKey t.ns n := by
            intro hk
            exact hmn (nodeKey_inj (by omega) hn64 hk)
          rw [hother m hmA hmB]
          exact h0
    · rw [hq3]
      exact hq32
    · intro m nd h3
      by_cases hA : nodeKey t.ns m = nodeKey t.ns (t.qty + 1)
      · rw [hsn3 m, if_pos hA] at h3
        cases h3
        show (List.replicate 256 (none : Option Nat)).length = 256
        exact List.length_replicate 256 none
      · by_cases hB : nodeKey t.ns m = nodeKey t.ns n
        · rw [hsn3 m, if_neg hA, if_pos hB] at h3
          cases h3
          rw [hcur1, setEdge_length]
          exact hlen256
        · rw [hother m hA hB] at h3
          exact hI.nodeLen m nd h3
    · intro m nd hm h3
      rw [hq3]
      by_cases hA : nodeKey t.ns m = nodeKey t.ns (t.qty + 1)
      · have := nodeKey_inj (by omega) hq64 hA
        omega
      · by_cases hB : nodeKey t.ns m = nodeKey t.ns n
        · have := nodeKey_inj (by omega) hn64 hB
          omega
        · rw [hother m hA hB] at h3
          have := hI.nodesBound m nd hm h3
          omega
    · intro m nd b2 j h3 hj
      rw [hq3]
      by_cases hA : nodeKey t.ns m = nodeKey t.ns (t.qty + 1)
      · rw [hsn3 m, if_pos hA] at h3
        cases h3
        rw [hchild] at hj
        rw [getEdge_fresh] at hj
        cases hj
      · by_cases hB : nodeKey t.ns m = nodeKey t.ns n
        · rw [hsn3 m, if_neg hA, if_pos hB] at h3
          cases h3
          rcases getEdge_setEdge_cases hj with h4 | ⟨h4, h5⟩
          · have := hI.edgeBound n cur b2 j hsn h4
            omega
          · omega
        · rw [hother m hA hB] at h3
          have := hI.edgeBound m nd b2 j h3 hj
          omega
    · intro m nd b2 j h3 hj
      by_cases hA : nodeKey t.ns m = nodeKey t.ns (t.qty + 1)
      · rw [hsn3 m, if_pos hA] at h3
        cases h3
        rw [hchild] at hj
        rw [getEdge_fresh] at hj
        cases hj
      · by_cases hB : nodeKey t.ns m = nodeKey t.ns n
        · rw [hsn3 m, if_neg hA, if_pos hB] at h3
          cases h3
          rcases getEdge_setEdge_cases hj with h4 | ⟨h4, h5⟩
          · obtain ⟨ndt, hndt⟩ := hI.edgeTarget n cur b2 j hsn h4
            obtain ⟨nd2, h5, _, _⟩ := hpres j ndt hndt
            exact ⟨nd2, h5⟩
          · subst h5
            exact ⟨child, hchl⟩
        · rw [hother m hA hB] at h3
          obtain ⟨ndt, hndt⟩ := hI.edgeTarget m nd b2 j h3 hj
          obtain ⟨nd2, h5, _, _⟩ := hpres j ndt hndt
          exact ⟨nd2, h5⟩
    · intro m hm hqm
      rw [hq3] at hqm
      have hval : t3.store.data (valueKey t3.ns m) = t.store.data (valueKey t.ns m) := by
        rw [hns3, hdata3, hdata2]
        dsimp only
        rw [if_neg (valueKey_ne_nodeKey t.ns m (t.qty + 1)),
            if_neg (valueKey_ne_nodeKey t.ns m n)]
      rw [hval]
      exact hI.freshCell m hm (by omega)
    · intro m nd b2 j h3 hj
      rw [htrace]
      by_cases hA : nodeKey t.ns m = nodeKey t.ns (t.qty + 1)
      · rw [hsn3 m, if_pos hA] at h3
        cases h3
        rw [hchild] at hj
        rw [getEdge_fresh] at hj
        cases hj
      · by_cases hB : nodeKey t.ns m = nodeKey t.ns n
        · rw [hsn3 m, if_neg hA, if_pos hB] at h3
          cases h3
          rcases getEdge_setEdge_cases hj with h4 | ⟨h4, h5⟩
          · exact traceHasEdgeTo_mono (hI.edgeTraced n cur b2 j hsn h4)
          · subst h5
            refine ⟨(nodeKey t.ns n, .node cur1), by simp, cur1, rfl, ?_⟩
            exact mem_of_getEdge hedge1
        · rw [hother m hA hB] at h3
          exact traceHasEdgeTo_mono (hI.edgeTraced m nd b2 j h3 hj)
    · rw [hns3, htrace]
      have hstep1 : TraceOK t.ns (t.store.trace ++ [(nodeKey t.ns n, .node cur1)]) := by
        refine traceOK_snoc hI.traceOK ?_
        intro n2 nd2 h1 h2 heq
        have hk := congrArg Prod.fst heq
        dsimp only at hk
        have hn2 : n2 = n := (nodeKey_inj hn64 (by omega) hk).symm
        subst hn2
        rcases htr with h0 | h0
        · omega
        · exact h0
      have hgoal : t.store.trace
          ++ [(nodeKey t.ns n, .node cur1), (nodeKey t.ns (t.qty + 1), .node child)]
          = (t.store.trace ++ [(nodeKey t.ns n, .node cur1)])
            ++ [(nodeKey t.ns (t.qty + 1), .node child)] := by
        simp
      rw [hgoal]
      refine traceOK_snoc hstep1 ?_
      intro n2 nd2 h1 h2 heq
      have hk := congrArg Prod.fst heq
      dsimp only at hk
      have hn2 : n2 = t.qty + 1 := (nodeKey_inj hq64 (by omega) hk).symm
      subst hn2
      refine ⟨(nodeKey t.ns n, .node cur1), by simp, cur1, rfl, ?_⟩
      exact mem_of_getEdge hedge1
  · intro k
    rw [hdata3, hdata2]
    dsimp only
    by_cases hA : k = nodeKey t.ns (t.qty + 1)
    · right
      right
      exact hA
    · rw [if_neg hA]
      by_cases hB : k = nodeKey t.ns n
      · right
        left
        exact hB
      · rw [if_neg hB]
        left
        rfl
  · exact ⟨_, htrace⟩

theorem followStore_cons {t : Trie} {n b : Nat} {rest : List Nat} {cur : TrieNode}
    (hsn : storedNode t n = some cur) :
    followStore t n (b :: rest) = (match getEdge cur b with
      | some m => followStore t m rest
      | none => none) := by
  show (match storedNode t n with
        | some nd =>
          match getEdge nd b with
          | some m => followStore t m rest
          | none => none
        | none => none) = _
  rw [hsn]


theorem insertLoop_spec {K : List Nat} :
    ∀ {t : Trie} {n : Nat} {cur : TrieNode} {t1 : Trie} {n1 : Nat},
    TrieInv t → storedNode t n = some cur → n ≤ t.qty →
    (n = 0 ∨ TraceHasEdgeTo t.store.trace n) →
    t.qty + K.length < 4294967296 →
    (∀ b2 ∈ K, b2 < 256) →
    insertLoop t n cur K = some (t1, n1) →
    InsOut t n K t1 n1 := by
  induction K with
  | nil =>
    intro t n cur t1 n1 hI hsn hn htr hbound hbytes h
    cases h
    refine ⟨hI, rfl, rfl, Nat.le_refl _, by simp, ⟨cur, hsn⟩, hn, htr, rfl,
            ?_, ?_, ?_, ?_, ⟨[], by simp⟩, ?_, ?_⟩
    · intro m nd hm
      exact ⟨nd, hm, rfl, fun b2 j hj => hj⟩
    · intro m nd hm h1 h0
      rw [h1] at h0
      cases h0
    · intro m h1 h2
      omega
    · intro k
      exact Or.inl rfl
    · intro n0 h0
      cases h0
      rfl
    · intro h0
      cases h0
  | cons b rest ih =>
    intro t n cur t1 n1 hI hsn hn htr hbound hbytes h
    have hb : b < 256 := hbytes b (by simp)
    have hbytes2 : ∀ b2 ∈ rest, b2 < 256 := fun b2 hb2 => hbytes b2 (by simp [hb2])
    unfold insertLoop at h
    cases hge : getEdge cur b with
    | some m =>
      rw [hge] at h
      dsimp only at h
      cases hcg : t.cache_get_node_at m with
      | none =>
        rw [hcg] at h
        cases h
      | some p =>
        rw [hcg] at h
        obtain ⟨ro, ta⟩ := p
        cases ro with
        | none => cases h
        | some nd =>
          have hmb := hI.edgeBound n cur b m hsn hge
          have hm32 : m < 4294967296 := by
            have := hI.qtyBound
            omega
          obtain ⟨nd0, hnd0⟩ := hI.edgeTarget n cur b m hsn hge
          have hr := cache_get_result hI.cacheOK hm32 hcg
          rw [hnd0] at hr
          cases hr
          obtain ⟨hs, hnsa, hq, hgrew⟩ := cache_get_spec hcg
          have hIa := cache_get_inv hI hcg
          have hcongr := storedNode_congr hs hnsa
          have hsna : storedNode ta m = some nd := by
            rw [hcongr m]
            exact hnd0
          have htra : m = 0 ∨ TraceHasEdgeTo ta.store.trace m := by
            right
            rw [hs]
            exact hI.edgeTraced n cur b m hsn hge
          have IH := ih hIa hsna (by omega) htra
            (by rw [hq]; simp at hbound ⊢; omega) hbytes2 h
          have hcons := @followStore_cons _ _ b rest _ hsn
          rw [hge] at hcons
          refine ⟨IH.inv, IH.nsEq.trans hnsa, IH.pfEq.trans (by rw [hs]),
                  ?_, ?_, IH.endNode, IH.endLe, IH.endTraced, ?_, ?_, ?_, ?_,
                  ?_, ?_, ?_, ?_⟩
          · have := IH.qtyLe
            omega
          · have := IH.qtyUb
            simp
            omega
          · obtain ⟨nd2, hnd2, hv2, he2⟩ := IH.preserve n cur
              (by rw [hcongr n]; exact hsn)
            rw [followStore_cons hnd2, he2 b m hge]
            exact IH.followEq
          · intro m0 nd1 hm0
            exact IH.preserve m0 nd1 (by rw [hcongr m0]; exact hm0)
          · intro m0 nd1 h32 h1 h0
            have := IH.freshHi m0 nd1 h32 h1 (by rw [hcongr m0]; exact h0)
            omega
          · intro m0 h1 h2
            exact IH.dense m0 (by omega) h2
          · intro k
            rcases IH.dataFrame k with h1 | ⟨m1, h1⟩
            · rw [h1, hs]
              exact Or.inl rfl
            · rw [hnsa] at h1
              exact Or.inr ⟨m1, h1⟩
          · obtain ⟨tr2, htr2⟩ := IH.traceExt
            rw [hs] at htr2
            exact ⟨tr2, htr2⟩
          · intro n0 h0
            rw [hcons] at h0
            exact IH.followMatch n0 (by rw [followStore_congr hcongr rest m]; exact h0)
          · intro h0
            rw [hcons] at h0
            have := IH.followNew (by rw [followStore_congr hcongr rest m]; exact h0)
            omega
    | none =>
      rw [hge] at h
      dsimp only at h
      have hq1 : t.qty + 1 < 4294967296 := by
        simp at hbound
        omega
      have hqmod : (t.qty + 1) % 18446744073709551616 = t.qty + 1 :=
        Nat.mod_eq_of_lt (by omega)
      rw [hqmod] at h
      have hqmod2 : (t.qty + 1) % 4294967296 = t.qty + 1 :=
        Nat.mod_eq_of_lt (by omega)
      rw [hqmod2] at h
      cases hcp1 : Trie.cache_put_node_at ⟨t.store, t.ns, t.qty + 1, t.cache⟩ n
          (setEdge cur b (t.qty + 1)) with
      | none =>
        rw [hcp1] at h
        cases h
      | some tA =>
        rw [hcp1] at h
        dsimp only at h
        cases hcp2 : tA.cache_put_node_at (t.qty + 1) ⟨b, List.replicate 256 none⟩ with
        | none =>
          rw [hcp2] at h
          cases h
        | some tB =>
          rw [hcp2] at h
          have hA := alloc_spec hI hsn hn htr hb hge hq1 hcp1 hcp2
          have IH := ih hA.inv hA.child (by rw [hA.qtyEq]) (Or.inr hA.childTraced)
            (by rw [hA.qtyEq]; simp at hbound ⊢; omega) hbytes2 h
          have hcons := @followStore_cons _ _ b rest _ hsn
          rw [hge] at hcons
          have hedge1 : getEdge (setEdge cur b (t.qty + 1)) b = some (t.qty + 1) :=
            getEdge_setEdge_self hb (hI.nodeLen n cur hsn)
          refine ⟨IH.inv, IH.nsEq.trans hA.nsEq, IH.pfEq.trans hA.pfEq,
                  ?_, ?_, IH.endNode, IH.endLe, IH.endTraced, ?_, ?_, ?_, ?_,
                  ?_, ?_, ?_, ?_⟩
          · have h1 := IH.qtyLe
            rw [hA.qtyEq] at h1
            omega
          · have h1 := IH.qtyUb
            rw [hA.qtyEq] at h1
            simp
            omega
          · obtain ⟨nd2, hnd2, hv2, he2⟩ := IH.preserve n _ hA.parent
            rw [followStore_cons hnd2, he2 b (t.qty + 1) hedge1]
            exact IH.followEq
          · intro m0 nd1 hm0
            obtain ⟨ndB, hB1, hB2, hB3⟩ := hA.preserve m0 nd1 hm0
            obtain ⟨ndC, hC1, hC2, hC3⟩ := IH.preserve m0 ndB hB1
            exact ⟨ndC, hC1, hC2.trans hB2, fun b2 j hj => hC3 b2 j (hB3 b2 j hj)⟩
          · intro m0 nd1 h32 h1 h0
            cases hsB : storedNode tB m0 with
            | some ndB =>
              have := hA.freshOne m0 ndB h32 hsB h0
              omega
            | none =>
              have := IH.freshHi m0 nd1 h32 h1 hsB
              rw [hA.qtyEq] at this
              omega
          · intro m0 h1 h2
            by_cases hm0 : m0 ≤ t.qty + 1
            · have hm0e : m0 = t.qty + 1 := by omega
              subst hm0e
              obtain ⟨ndC, hC1, _, _⟩ := IH.preserve _ _ hA.child
              exact ⟨ndC, hC1⟩
            · refine IH.dense m0 ?_ h2
              rw [hA.qtyEq]
              omega
          · intro k
            rcases IH.dataFrame k with h1 | ⟨m1, h1⟩
            · rcases hA.dataFrame k with h2 | h2 | h2
              · rw [h1, h2]
                exact Or.inl rfl
              · exact Or.inr ⟨n, h2⟩
              · exact Or.inr ⟨t.qty + 1, h2⟩
            · rw [hA.nsEq] at h1
              exact Or.inr ⟨m1, h1⟩
          · obtain ⟨tr2, htr2⟩ := IH.traceExt
            obtain ⟨tr3, htr3⟩ := hA.traceExt
            rw [htr3] at htr2
            exact ⟨tr3 ++ tr2, by rw [htr2]; simp⟩
          · intro n0 h0
            rw [hcons] at h0
            cases h0
          · intro h0
            cases rest with
            | nil =>
              have := IH.followMatch (t.qty + 1) rfl
              omega
            | cons b2 r2 =>
              have hfol2 : followStore tB (t.qty + 1) (b2 :: r2) = none := by
                rw [followStore_cons hA.child]
                show (match getEdge ⟨b, List.replicate 256 none⟩ b2 with
                      | some m => followStore tB m r2
                      | none => none) = none
                rw [getEdge_fresh]
              have := IH.followNew hfol2
              rw [hA.qtyEq] at this
              omega

theorem cellAt_of_dataFrame {ta t2 : Trie} (hns : t2.ns = ta.ns)
    (hdf : ∀ k, t2.store.data k = ta.store.data k ∨ ∃ m, k = nodeKey ta.ns m) :
    ∀ m, cellAt t2 m = cellAt ta m := by
  intro m
  unfold cellAt
  rw [hns]
  rcases hdf (valueKey ta.ns m) with h1 | ⟨m1, h1⟩
  · rw [h1]
  · exact absurd h1 (valueKey_ne_nodeKey ta.ns m m1)

theorem dataValue_of_dataFrame {ta t2 : Trie} (hns : t2.ns = ta.ns)
    (hdf : ∀ k, t2.store.data k = ta.store.data k ∨ ∃ m, k = nodeKey ta.ns m) :
    ∀ m, t2.store.data (valueKey t2.ns m) = ta.store.data (valueKey ta.ns m) := by
  intro m
  rw [hns]
  rcases hdf (valueKey ta.ns m) with h1 | ⟨m1, h1⟩
  · rw [h1]
  · exact absurd h1 (valueKey_ne_nodeKey ta.ns m m1)


theorem insert_spec {t : Trie} {K V : List Nat} {t4 : Trie}
    (hI : TrieInv t) (hbound : t.qty + K.length < 4294967296)
    (hbytes : ∀ b2 ∈ K, b2 < 256)
    (h : Trie.insert t K V = some t4) : InsertOut t K V t4 := by
  unfold Trie.insert at h
  cases hcg : t.cache_get_node_at 0 with
  | none =>
    rw [hcg] at h
    cases h
  | some p =>
    rw [hcg] at h
    obtain ⟨ro, ta⟩ := p
    cases ro with
    | none => cases h
    | some root =>
      dsimp only at h
      obtain ⟨root0, hroot⟩ := hI.rootEx
      have hr := cache_get_result hI.cacheOK (by omega) hcg
      rw [hroot] at hr
      cases hr
      obtain ⟨hs, hnsa, hq, hgrew⟩ := cache_get_spec hcg
      have hIa := cache_get_inv hI hcg
      have hcongr := storedNode_congr hs hnsa
      cases hloop : insertLoop ta 0 root K with
      | none =>
        rw [hloop] at h
        cases h
      | some p2 =>
        rw [hloop] at h
        obtain ⟨t2, n1⟩ := p2
        dsimp only at h
        have LS := insertLoop_spec hIa (by rw [hcongr 0]; exact hroot)
          (by omega) (Or.inl rfl) (by rw [hq]; omega) hbytes hloop
        have hI3 := set_trie_data_inv LS.inv
        obtain ⟨hns3, hq3, hc3, hpf3, hdk3, htr3⟩ := set_trie_data_frame t2
        obtain ⟨hsn3, hcell3⟩ := storedNode_after_metaPut t2
        obtain ⟨hns4, hq4, hc4, hpf4, hd4, htr4, hkl4⟩ := append_value_spec h
        have hn132 : n1 < 4294967296 := by
          have h1 := LS.endLe
          have h2 := LS.inv.qtyBound
          omega
        have hn164 : n1 < 18446744073709551616 := by omega
        have hI4 : TrieInv t4 := append_value_inv hI3 (by rw [hq3]; exact LS.endLe) h
        have hnsAll : t4.ns = t.ns := by
          rw [hns4, hns3, LS.nsEq, hnsa]
        have hnsBound : t.ns.length + 15 ≤ 1024 := by
          rw [hns3, LS.nsEq, hnsa] at hkl4
          exact hkl4
        have hcell2 : ∀ m, cellAt t2 m = cellAt t m := by
          intro m
          have h1 := cellAt_of_dataFrame LS.nsEq LS.dataFrame m
          rw [h1]
          unfold cellAt
          rw [hs, hnsa]
        obtain ⟨hsn4, hcell4self, hcell4other, hvk4⟩ :=
          storedNode_after_valuePut hns4 hd4 hn164
        have hsnAll : ∀ m, storedNode t4 m = storedNode t2 m := by
          intro m
          rw [hsn4 m, hsn3 m]
        have hfolAll : ∀ n2 Kx, followStore t4 n2 Kx = followStore t2 n2 Kx :=
          fun n2 Kx => followStore_congr hsnAll Kx n2
        have hfol2 : followStore t2 0 K = some n1 := LS.followEq
        have hcell3n : cellAt (Trie.set_trie_data t2) n1 = cellAt t n1 := by
          rw [hcell3 n1, hcell2 n1]
        have hcellKey : cellAt t n1 = keyCell t K := by
          unfold keyCell
          have hf : followStore ta 0 K = followStore t 0 K :=
            followStore_congr hcongr K 0
          cases hfol : followStore t 0 K with
          | some n0 =>
            have := LS.followMatch n0 (by rw [hf]; exact hfol)
            rw [this]
          | none =>
            have hnew := LS.followNew (by rw [hf]; exact hfol)
            rw [hq] at hnew
            unfold cellAt
            rw [hI.freshCell n1 hn132 hnew]
        refine ⟨hI4, hnsAll, ?_, ?_, hnsBound, ?_, ?_, ?_, ?_, ?_⟩
        · have h1 := LS.qtyLe
          rw [hq] at h1
          have := hq4
          rw [hq3] at this
          omega
        · have h1 := LS.qtyUb
          rw [hq] at h1
          have := hq4
          rw [hq3] at this
          omega
        · unfold keyCell
          rw [hfolAll 0 K, hfol2]
          dsimp only
          rw [show cellAt t4 n1 = cellAt (Trie.set_trie_data t2) n1
                ++ (le32 V.length ++ V) from hcell4self]
          rw [hcell3n, hcellKey]
          rfl
        · intro m nd hm
          have h0 : storedNode ta m = some nd := by
            rw [hcongr m]
            exact hm
          obtain ⟨nd2, h1, h2, h3⟩ := LS.preserve m nd h0
          refine ⟨nd2, ?_, h2, h3⟩
          rw [hsnAll m]
          exact h1
        · intro m nd h32 h1 h0
          rw [hsnAll m] at h1
          have := LS.freshHi m nd h32 h1 (by rw [hcongr m]; exact h0)
          rw [hq] at this
          exact this
        · obtain ⟨tr2, htr2⟩ := LS.traceExt
          rw [hs] at htr2
          rcases htr3 with h1 | h1
          · rw [htr4, h1, htr2]
            refine ⟨tr2 ++ [(valueKey t2.set_trie_data.ns n1,
              StoredVal.bytes (cellAt t2.set_trie_data n1 ++ (le32 V.length ++ V)))], ?_⟩
            simp
          · rw [htr4, h1, htr2]
            refine ⟨tr2 ++ [(t2.ns, StoredVal.meta t2.qty)]
              ++ [(valueKey t2.set_trie_data.ns n1,
              StoredVal.bytes (cellAt t2.set_trie_data n1 ++ (le32 V.length ++ V)))], ?_⟩
            simp
        · have := hI4.traceOK
          rw [hnsAll] at this
          exact this

theorem insert_nil_spec {t t4 : Trie} {V : List Nat}
    (hI : TrieInv t) (h : Trie.insert t [] V = some t4) :
    TrieInv t4 ∧ t4.qty = t.qty ∧ t4.ns = t.ns ∧
    (∀ m, storedNode t4 m = storedNode t m) ∧
    cellAt t4 0 = cellAt t 0 ++ (le32 V.length ++ V) ∧
    t.ns.length + 15 ≤ 1024 := by
  unfold Trie.insert at h
  cases hcg : t.cache_get_node_at 0 with
  | none =>
    rw [hcg] at h
    cases h
  | some p =>
    rw [hcg] at h
    obtain ⟨ro, ta⟩ := p
    cases ro with
    | none => cases h
    | some root =>
      dsimp only at h
      rw [show insertLoop ta 0 root [] = some (ta, 0) from rfl] at h
      dsimp only at h
      obtain ⟨hs, hnsa, hq, hgrew⟩ := cache_get_spec hcg
      have hIa := cache_get_inv hI hcg
      have hI3 := set_trie_data_inv hIa
      obtain ⟨hns3, hq3, hc3, hpf3, hdk3, htr3⟩ := set_trie_data_frame ta
      obtain ⟨hsn3, hcell3⟩ := storedNode_after_metaPut ta
      obtain ⟨hns4, hq4, hc4, hpf4, hd4, htr4, hkl4⟩ := append_value_spec h
      have hI4 : TrieInv t4 := append_value_inv hI3 (by omega) h
      obtain ⟨hsn4, hcell4self, hcell4other, hvk4⟩ :=
        storedNode_after_valuePut hns4 hd4 (by omega)
      refine ⟨hI4, ?_, ?_, ?_, ?_, ?_⟩
      · rw [hq4, hq3, hq]
      · rw [hns4, hns3, hnsa]
      · intro m
        rw [hsn4 m, hsn3 m, storedNode_congr hs hnsa]
      · rw [hcell4self, hcell3 0]
        have : cellAt ta 0 = cellAt t 0 := by
          unfold cellAt
          rw [hs, hnsa]
        rw [this]
      · rw [hns3, hnsa] at hkl4
        exact hkl4

theorem new_spec {s : Store} {ns : List Nat} {t : Trie}
    (hempty : ∀ k, s.data k = none) (htr0 : s.trace = [])
    (h : Trie.new s ns = some t) :
    TrieInv t ∧ t.qty = 0 ∧ t.ns = ns ∧ storedNode t 0 = some defaultNode ∧
    t.store.putFails = s.putFails := by
  unfold Trie.new at h
  rw [hempty ns] at h
  dsimp only at h
  unfold Trie.cache_get_node_at at h
  dsimp only at h
  unfold Trie.get_trie_node_at at h
  dsimp only at h
  cases hk : mkKey ns (le64 0) with
  | none =>
    rw [hk] at h
    cases h
  | some k =>
    rw [hk] at h
    have hkl := mkKey_some_len hk
    rw [le64_length] at hkl
    have hkey : k = nodeKey ns 0 := by
      have h2 := mkKey_node ns 0 hkl
      rw [hk] at h2
      cases h2
      rfl
    subst hkey
    dsimp only at h
    rw [hempty (nodeKey ns 0)] at h
    dsimp only at h
    obtain ⟨hns2, hq2, hdata2, hpf2, htrace2, hcache2, hkl2⟩ := cache_put_spec h
    dsimp only at hns2 hq2 hdata2 hpf2 htrace2 hcache2 hkl2
    have hsn : ∀ m, storedNode t m =
        (if nodeKey ns m = nodeKey ns 0 then some defaultNode else none) := by
      intro m
      unfold storedNode
      rw [hns2, hdata2]
      dsimp only
      by_cases hA : nodeKey ns m = nodeKey ns 0
      · simp only [if_pos hA]
      · simp only [if_neg hA, hempty]
    have hroot : storedNode t 0 = some defaultNode := by
      rw [hsn 0, if_pos rfl]
    have htrace : t.store.trace = [(nodeKey ns 0, .node defaultNode)] := by
      rw [htrace2, htr0]
      simp
    refine ⟨?_, hq2, hns2, hroot, hpf2⟩
    constructor
    · exact ⟨defaultNode, hroot⟩
    · intro n nd hn hcm
      rw [hcache2] at hcm
      dsimp only at hcm
      by_cases hn0 : n = 0
      · subst hn0
        rw [if_pos rfl] at hcm
        cases hcm
        exact hroot
      · rw [if_neg hn0] at hcm
        cases hcm
    · rw [hq2]
      omega
    · intro n nd h2
      rw [hsn n] at h2
      by_cases hA : nodeKey ns n = nodeKey ns 0
      · rw [if_pos hA] at h2
        cases h2
        exact List.length_replicate 256 none
      · rw [if_neg hA] at h2
        cases h2
    · intro n nd hn h2
      rw [hq2]
      rw [hsn n] at h2
      by_cases hA : nodeKey ns n = nodeKey ns 0
      · have := nodeKey_inj (by omega) (by omega) hA
        omega
      · rw [if_neg hA] at h2
        cases h2
    · intro n nd b m h2 he
      rw [hsn n] at h2
      by_cases hA : nodeKey ns n = nodeKey ns 0
      · rw [if_pos hA] at h2
        cases h2
        rw [show defaultNode = ⟨0, List.replicate 256 none⟩ from rfl] at he
        rw [getEdge_fresh] at he
        cases he
      · rw [if_neg hA] at h2
        cases h2
    · intro n nd b m h2 he
      rw [hsn n] at h2
      by_cases hA : nodeKey ns n = nodeKey ns 0
      · rw [if_pos hA] at h2
        cases h2
        rw [show defaultNode = ⟨0, List.replicate 256 none⟩ from rfl] at he
        rw [getEdge_fresh] at he
        cases he
      · rw [if_neg hA] at h2
        cases h2
    · intro m hm hqm
      rw [hns2, hdata2]
      dsimp only
      rw [if_neg (valueKey_ne_nodeKey ns m 0), hempty]
    · intro n nd b m h2 he
      rw [hsn n] at h2
      by_cases hA : nodeKey ns n = nodeKey ns 0
      · rw [if_pos hA] at h2
        cases h2
        rw [show defaultNode = ⟨0, List.replicate 256 none⟩ from rfl] at he
        rw [getEdge_fresh] at he
        cases he
      · rw [if_neg hA] at h2
        cases h2
    · rw [hns2, htrace]
      intro pre e post heq n2 nd2 h1 h2 he
      cases pre with
      | nil =>
        simp only [List.nil_append] at heq
        have he0 : e = (nodeKey ns 0, StoredVal.node defaultNode) :=
          (List.cons.inj heq).1.symm
        rw [he] at he0
        have hk2 := congrArg Prod.fst he0
        dsimp only at hk2
        have := nodeKey_inj (by omega) (by omega) hk2
        omega
      | cons a pre2 =>
        simp only [List.cons_append] at heq
        have h0 := (List.cons.inj heq).2
        have hl := congrArg List.length h0
        simp at hl
        omega

theorem itemsPassAux_panic {buf : List Nat} {pos : Nat}
    (h : itemsNext buf pos = .panic) : itemsPassAux buf pos = none := by
  rw [itemsPassAux]
  split
  · rename_i h2
    rw [h] at h2
    cases h2
  · rename_i h2
    rw [h] at h2
    cases h2
  · rfl
  · rename_i v2 p3 h2
    rw [h] at h2
    cases h2

theorem wfCell_concat (vs : List (List Nat)) (v : List Nat) :
    wfCell (vs ++ [v]) = wfCell vs ++ (le32 v.length ++ v) := by
  rw [wfCell_append, wfCell_cons]
  show wfCell vs ++ (encRecord v ++ wfCell []) = _
  rw [show wfCell [] = [] from rfl, List.append_nil]
  rfl

theorem append_isSome_content (t : Trie) (n : Nat) (v w : List Nat)
    (hlen : v.length = w.length) :
    (t.append_value n v).isSome = (t.append_value n w).isSome := by
  unfold Trie.append_value
  cases hk : mkKey t.ns (le64 n ++ valuesSuffix) with
  | none => rfl
  | some k =>
    dsimp only
    unfold dbPut
    by_cases hf : t.store.putFails k = true
    · rw [if_pos hf, if_pos hf]
    · rw [if_neg hf, if_neg hf]
      rfl

theorem cache_put_fail {t : Trie} {n : Nat} (nd : TrieNode)
    (hk : t.ns.length + 8 ≤ 1024)
    (hf : t.store.putFails (t.ns ++ le64 n) = true) :
    t.cache_put_node_at n nd = none := by
  unfold Trie.cache_put_node_at Trie.put_trie_node_at
  dsimp only
  rw [mkKey_node t.ns n hk]
  dsimp only
  unfold dbPut
  rw [show nodeKey t.ns n = t.ns ++ le64 n from rfl, hf]
  rfl

theorem set_trie_data_fail {t : Trie} (hf : t.store.putFails t.ns = true) :
    Trie.set_trie_data t = t := by
  unfold Trie.set_trie_data dbPut
  rw [hf]
  rfl

/-- C1, counterexample: the claim is false as stated. Inserting into a
fresh trie the single-byte non-UTF-8 value 255 under key 97 completes, get
returns the raw cell bytes 1,0,0,0,255, and a single iteration pass over
it decodes to the empty sequence, which does not have the inserted value
as its last element. -/
theorem C1_cex :
    Trie.insert trieA [97] [255] = some c1T ∧
    (Trie.get c1T [97]).map Prod.fst = some (Items.mk [1, 0, 0, 0, 255]) ∧
    itemsPass [1, 0, 0, 0, 255] = some [] ∧
    ([] : List (List Nat)).getLast? ≠ some [255] :=
  ⟨rfl, rfl, @itemsPassAux_skip [1, 0, 0, 0, 255] 0 5 (by decide), by decide⟩

/-- C1, amended: after insert of V under K completes, the value cell of K
holds the previous records followed by the record of V; provided every
value ever inserted under K, including V, is nonempty, valid UTF-8 and
shorter than 2 to the 32, get followed by one decoding pass returns
exactly the previous values with V as the last element, in insertion
order. The side conditions are forced by the decoder: it drops a
zero-length final record, stops the pass at a non-UTF-8 record, and reads
lengths back modulo 2 to the 32. -/
theorem C1_amended {t t4 : Trie} {K V : List Nat} {vs : List (List Nat)}
    (hI : TrieInv t) (hbound : t.qty + K.length < 4294967296)
    (hbytes : ∀ b2 ∈ K, b2 < 256)
    (hcell : keyCell t K = wfCell vs)
    (hwf : ∀ v ∈ vs ++ [V], v ≠ [] ∧ validUtf8 v = true ∧ v.length < 4294967296)
    (h : Trie.insert t K V = some t4) :
    (Trie.get t4 K).map Prod.fst = some (Items.mk (wfCell (vs ++ [V]))) ∧
    itemsPass (wfCell (vs ++ [V])) = some (vs ++ [V]) ∧
    (vs ++ [V]).getLast? = some V := by
  have IS := insert_spec hI hbound hbytes h
  have hk4 : keyCell t4 K = wfCell (vs ++ [V]) := by
    rw [IS.keyCellEq, hcell, wfCell_concat]
  obtain ⟨t5, hget⟩ := get_found IS.inv (by rw [IS.nsEq]; exact IS.nsBound)
  refine ⟨?_, itemsPass_wfCell _ hwf, List.getLast?_concat vs⟩
  rw [hget]
  simp only [Option.map_some']
  rw [hk4]

/-- C1, witness: on a fresh trie, inserting value 52 under key 97 and
reading it back yields exactly that one value. -/
theorem C1_witness :
    (Trie.get c1wT [97]).map Prod.fst = some (Items.mk (wfCell ([] ++ [[52]]))) ∧
    itemsPass (wfCell ([] ++ [[52]])) = some ([] ++ [[52]]) ∧
    (([] : List (List Nat)) ++ [[52]]).getLast? = some [52] :=
  C1_amended (@new_spec emptyStore [] trieA (fun k => rfl) rfl rfl).1
    (by decide) (by decide) rfl (by decide) rfl

/-- C2, code evaluation at the failing inputs: on the buffer 5,0,0,0,65,
which declares a 5-byte payload but holds only one payload byte, the
decoder performs an out-of-bounds slice, a panic, instead of yielding
end-of-sequence; and a complete zero-length record ending exactly at the
buffer boundary is treated as end-of-sequence by the off-by-one boundary
check and dropped instead of yielded. -/
theorem C2_eval :
    itemsNext [5, 0, 0, 0, 65] 0 = Step.panic ∧
    itemsPass [5, 0, 0, 0, 65] = none ∧
    itemsNext (encRecord []) 0 = Step.stop ∧
    itemsPass (encRecord []) = some [] :=
  ⟨by decide, itemsPassAux_panic (by decide), by decide,
   itemsPassAux_stop (by decide)⟩

/-- C3, counterexample: the claim is false as stated. During insert of key
97 into a fresh trie, the parent node carrying the new edge is written
before the child: replaying only the first two writes of the log leaves
storage holding a root whose edge for byte 97 points to node 1 while no
record for node 1 is present, a dangling reference. -/
theorem C3_cex :
    c3T.store.trace.take 2 = [(nodeKey [] 0, .node defaultNode),
      (nodeKey [] 0, .node (setEdge defaultNode 97 1))] ∧
    c3prefix2 (nodeKey [] 0) = some (.node (setEdge defaultNode 97 1)) ∧
    getEdge (setEdge defaultNode 97 1) 97 = some 1 ∧
    c3prefix2 (nodeKey [] 1) = none :=
  ⟨by decide, by decide, by decide, rfl⟩

/-- C3, amended: the order is the reverse of the claim. The parent node
with its new edge is written before the newly allocated child, so after a
prefix of the writes an edge may reference a node not yet present; what
the write log does guarantee is the dual property: every write of a
non-root node record is preceded, within the log, by the write of a node
record carrying an edge to it, so a child never appears in storage before
an edge referencing it. -/
theorem C3_amended {t t4 : Trie} {K V : List Nat}
    (hI : TrieInv t) (hbound : t.qty + K.length < 4294967296)
    (hbytes : ∀ b2 ∈ K, b2 < 256)
    (h : Trie.insert t K V = some t4) :
    TraceOK t.ns t4.store.trace ∧
    ∃ tr2, t4.store.trace = t.store.trace ++ tr2 := by
  have IS := insert_spec hI hbound hbytes h
  exact ⟨IS.traceAll, IS.traceExt⟩

/-- C3, witness: the full write log of a fresh trie after inserting key 97
satisfies the amended ordering property. -/
theorem C3_witness : TraceOK [] c3T.store.trace :=
  (@C3_amended trieA c3T [97] [42]
    (@new_spec emptyStore [] trieA (fun k => rfl) rfl rfl).1
    (by decide) (by decide) rfl).1

/-- C5, counterexample: the claim is false as stated. With an injected I/O
failure on the metadata key, insert still completes normally: the error
from the metadata write is discarded by the binding that ignores the put
result, the caller is never informed, and the metadata record is simply
missing from storage afterwards. -/
theorem C5_cex :
    c5store.putFails [112] = true ∧
    Trie.insert c5T [] [42] = some c5T2 ∧
    c5T2.store.data [112] = none :=
  ⟨by decide, rfl, rfl⟩

/-- C5, amended: an I/O error while writing a node record is a panic that
aborts the call inside cache_put_node_at; an I/O error while writing the
metadata record is silently discarded, set_trie_data returning with the
state unchanged, and flush likewise discards the result of flush_wal; no
write is ever retried. -/
theorem C5_amended :
    (∀ (t : Trie) (n : Nat) (nd : TrieNode), t.ns.length + 8 ≤ 1024 →
      t.store.putFails (t.ns ++ le64 n) = true →
      t.cache_put_node_at n nd = none) ∧
    (∀ t : Trie, t.store.putFails t.ns = true → Trie.set_trie_data t = t) ∧
    (∀ t : Trie, Trie.flush t = t) :=
  ⟨fun t n nd hk hf => cache_put_fail nd hk hf,
   fun t hf => set_trie_data_fail hf,
   fun t => rfl⟩

/-- C5, witness: on the store that fails puts at the metadata key, a
metadata write leaves the engine state unchanged and reports nothing. -/
theorem C5_witness : Trie.set_trie_data c5T = c5T :=
  C5_amended.2.1 c5T (by decide)

/-- C6, code evaluation: there is no configuration error for a long
namespace. With a 1017-byte namespace, construction itself panics on the
fixed 1024-byte key buffer after the metadata read was already issued;
with a 1016-byte namespace construction succeeds, but the very first
insert panics later in append_value, whose buffer allows only 1009
namespace bytes, so no single defined maximum exists either. -/
theorem C6_eval :
    Trie.new emptyStore p1017 = none ∧
    (Trie.new emptyStore p1016).isSome = true ∧
    (Trie.new emptyStore p1016).bind (fun t => t.insert [] [42]) = none :=
  ⟨rfl, rfl, rfl⟩

/-- C7, counterexample: the claim is false as stated. From a state holding
only the default root and a node counter at the usize maximum, insert
wraps the counter to zero, so the new node is not assigned nodeCount plus
one; index 0 is reused and the root record itself is overwritten by the
fresh child. -/
theorem C7_cex :
    storedNode c7T 0 = some defaultNode ∧
    c7T.qty = 18446744073709551615 ∧
    Trie.insert c7T [5] [1] = some c7T2 ∧
    c7T2.qty = 0 ∧
    storedNode c7T2 0 = some ⟨5, List.replicate 256 none⟩ :=
  ⟨rfl, rfl, rfl, rfl, rfl⟩

/-- C7, amended: provided the node counter stays below 2 to the 32, the
bound imposed by storing edge targets as u32 and far below the usize wrap,
every public operation preserves the structural invariants: construction
on a fresh namespace establishes them with the root exempt from the
counter; insert keeps the root present, assigns only fresh indices above
the old counter, preserves every existing node record with its value byte
and its set edge slots, and maintains all invariants; get leaves the store
untouched and preserves them; flush changes nothing. -/
theorem C7_amended :
    (∀ (s : Store) (ns : List Nat) (t : Trie), (∀ k, s.data k = none) →
      s.trace = [] → Trie.new s ns = some t →
      TrieInv t ∧ t.qty = 0 ∧ storedNode t 0 = some defaultNode) ∧
    (∀ (t : Trie) (K V : List Nat) (t4 : Trie), TrieInv t →
      t.qty + K.length < 4294967296 → (∀ b2 ∈ K, b2 < 256) →
      Trie.insert t K V = some t4 →
      TrieInv t4 ∧
      (∃ nd, storedNode t4 0 = some nd) ∧
      t.qty ≤ t4.qty ∧ t4.qty ≤ t.qty + K.length ∧
      (∀ m nd, storedNode t m = some nd → ∃ nd2, storedNode t4 m = some nd2
        ∧ nd2.value = nd.value
        ∧ (∀ b2 j, getEdge nd b2 = some j → getEdge nd2 b2 = some j)) ∧
      (∀ m nd, m < 4294967296 → storedNode t4 m = some nd →
        storedNode t m = none → t.qty < m)) ∧
    (∀ (t : Trie) (K : List Nat) (r : Items × Trie), TrieInv t →
      Trie.get t K = some r → TrieInv r.2 ∧ r.2.store = t.store ∧ r.2.qty = t.qty) ∧
    (∀ t : Trie, Trie.flush t = t) := by
  refine ⟨?_, ?_, ?_, fun t => rfl⟩
  · intro s ns t hempty htr0 h
    obtain ⟨hI, hq, hns, hroot, hpf⟩ := new_spec hempty htr0 h
    exact ⟨hI, hq, hroot⟩
  · intro t K V t4 hI hbound hbytes h
    have IS := insert_spec hI hbound hbytes h
    exact ⟨IS.inv, IS.inv.rootEx, IS.qtyLe, IS.qtyUb, IS.preserve, IS.freshHi⟩
  · intro t K r hI h
    obtain ⟨it, t2⟩ := r
    obtain ⟨hs, hns, hq, hgrew⟩ := get_frame h
    exact ⟨get_inv hI h, hs, hq⟩

/-- C7, witness: inserting key 97 into a fresh trie preserves the
invariants. -/
theorem C7_witness : TrieInv c3T :=
  (C7_amended.2.1 trieA [97] [42] c3T
    (@new_spec emptyStore [] trieA (fun k => rfl) rfl rfl).1
    (by decide) (by decide) rfl).1

/-- C8: when a value cell contains a record whose payload is not valid
UTF-8, the iterator yields None at that record, with the cursor advanced
past it, even when complete records follow; hence a single iteration pass
returns only the values before the bad record and none after it; and
insert itself accepts arbitrary byte values, its success being independent
of the payload content. -/
theorem C8_main {vs1 vs2 : List (List Nat)} {bad : List Nat}
    (hwf : ∀ v ∈ vs1, v ≠ [] ∧ validUtf8 v = true ∧ v.length < 4294967296)
    (hbad : validUtf8 bad = false) (hblen : bad.length < 4294967296) :
    itemsNext (wfCell (vs1 ++ bad :: vs2)) (wfCell vs1).length
      = Step.skip ((wfCell vs1).length + 4 + bad.length) ∧
    itemsPass (wfCell (vs1 ++ bad :: vs2)) = some vs1 ∧
    (∀ (t : Trie) (n : Nat) (v w : List Nat), v.length = w.length →
      (t.append_value n v).isSome = (t.append_value n w).isSome) := by
  have hbne : bad ≠ [] := by
    intro hh
    rw [hh] at hbad
    cases hbad
  have hshape : wfCell (vs1 ++ bad :: vs2)
      = wfCell vs1 ++ (encRecord bad ++ wfCell vs2) := by
    rw [wfCell_append, wfCell_cons]
  refine ⟨?_, ?_, append_isSome_content⟩
  · rw [hshape]
    have hstep := itemsNext_at_record (wfCell vs1) bad (wfCell vs2) hbne hblen
    rw [if_neg (by rw [hbad]; simp)] at hstep
    exact hstep
  · rw [hshape]
    exact itemsPass_wf_bad vs1 bad (wfCell vs2) hwf hbad hblen

/-- C8, witness: a cell holding the UTF-8 record 97, then the non-UTF-8
record 255, then the record 98, decodes in one pass to just the first
value, the iterator yielding None at the bad record. -/
theorem C8_witness :
    itemsNext (wfCell ([[97]] ++ [255] :: [[98]])) (wfCell [[97]]).length
      = Step.skip ((wfCell [[97]]).length + 4 + ([255] : List Nat).length) ∧
    itemsPass (wfCell ([[97]] ++ [255] :: [[98]])) = some [[97]] :=
  ⟨(C8_main (by decide) (by decide) (by decide)).1,
   (C8_main (by decide) (by decide) (by decide)).2.1⟩

/-- C9, counterexample: the claim is false as stated. Insert of the empty
value under the empty key appends a zero-length record to the root cell,
but get of the empty key then decodes to the empty sequence, not to the
one-element sequence of values inserted under the empty key, because the
boundary check drops a record whose length field ends at the buffer
edge. -/
theorem C9_cex :
    Trie.insert trieA [] [] = some c9T ∧
    (Trie.get c9T []).map Prod.fst = some (Items.mk [0, 0, 0, 0]) ∧
    itemsPass [0, 0, 0, 0] = some [] ∧
    some ([] : List (List Nat)) ≠ some [([] : List Nat)] :=
  ⟨rfl, rfl, itemsPassAux_stop (by decide), by decide⟩

/-- C9, amended: insert under the empty key appends the record of V to the
value cell of the root node, index 0, without allocating any node or
touching any node record or edge, and get of the empty key returns the
root cell; when every value inserted under the empty key, V included, is
nonempty, valid UTF-8 and shorter than 2 to the 32, one decoding pass
returns exactly those values in insertion order. -/
theorem C9_amended {t t4 : Trie} {V : List Nat} {vs : List (List Nat)}
    (hI : TrieInv t) (h : Trie.insert t [] V = some t4) :
    t4.qty = t.qty ∧
    (∀ m, storedNode t4 m = storedNode t m) ∧
    cellAt t4 0 = cellAt t 0 ++ (le32 V.length ++ V) ∧
    (cellAt t 0 = wfCell vs →
      (∀ v ∈ vs ++ [V], v ≠ [] ∧ validUtf8 v = true ∧ v.length < 4294967296) →
      (Trie.get t4 []).map Prod.fst = some (Items.mk (wfCell (vs ++ [V]))) ∧
      itemsPass (wfCell (vs ++ [V])) = some (vs ++ [V])) := by
  obtain ⟨hI4, hq, hns, hsn, hcell, hnsb⟩ := insert_nil_spec hI h
  refine ⟨hq, hsn, hcell, ?_⟩
  intro hc0 hwf
  have hk4 : keyCell t4 [] = wfCell (vs ++ [V]) := by
    show cellAt t4 0 = wfCell (vs ++ [V])
    rw [hcell, hc0, wfCell_concat]
  obtain ⟨t5, hget⟩ := get_found hI4 (by rw [hns]; exact hnsb)
  refine ⟨?_, itemsPass_wfCell _ hwf⟩
  rw [hget]
  simp only [Option.map_some']
  rw [hk4]

/-- C9, witness: inserting value 52 under the empty key into a fresh trie
touches no node record and leaves the root cell holding its record. -/
theorem C9_witness :
    c9wT.qty = trieA.qty ∧
    cellAt c9wT 0 = cellAt trieA 0 ++ (le32 ([52] : List Nat).length ++ [52]) :=
  ⟨(@C9_amended trieA c9wT [52] []
      (@new_spec emptyStore [] trieA (fun k => rfl) rfl rfl).1 rfl).1,
   (@C9_amended trieA c9wT [52] []
      (@new_spec emptyStore [] trieA (fun k => rfl) rfl rfl).1 rfl).2.2.1⟩

/-- C10: whenever get returns, the backing store is completely unchanged,
its contents and its write log included, so no write was issued; the
namespace and counter are unchanged; and the only mutation is that cache
entries may have been added, each copied verbatim from a node record
already in storage. -/
theorem C10_main {t : Trie} {key : List Nat} {it : Items} {t2 : Trie}
    (h : Trie.get t key = some (it, t2)) :
    t2.store = t.store ∧ t2.ns = t.ns ∧ t2.qty = t.qty ∧ CacheGrew t t2 :=
  get_frame h

/-- C10, witness: a get on a fresh trie returns with the store intact. -/
theorem C10_witness :
    trieA.store = trieA.store ∧ trieA.ns = trieA.ns ∧
    trieA.qty = trieA.qty ∧ CacheGrew trieA trieA :=
  @C10_main trieA [] ⟨[]⟩ trieA rfl
